import Mathlib

/-!
Verification of the resilient chunked translation pipeline of the Cvmodel
repository.  Strings are modelled as `List Char`; the JavaScript sources in
`src/server/index.js` (the "server" variants) and in the unnamed alternate
server file (the "alt" variants) are embedded as executable Lean functions.
-/

namespace Cvmodel

/-- Left brace character, written via its code point. -/
def lbrace : Char := Char.ofNat 123

/-- Right brace character, written via its code point. -/
def rbrace : Char := Char.ofNat 125

/-- Backtick character, written via its code point. -/
def btick : Char := Char.ofNat 96

/-- The whitespace class used by JavaScript `String.prototype.trim` and the
regex class `\s`: ASCII whitespace plus the Unicode space separators. -/
def jsWhitespace (c : Char) : Bool :=
  c.toNat ∈ [9, 10, 11, 12, 13, 32, 160, 5760, 8192, 8193, 8194, 8195, 8196,
    8197, 8198, 8199, 8200, 8201, 8202, 8232, 8233, 8239, 8287, 12288, 65279]

/-- Model of JavaScript `String.prototype.trim`: remove leading and trailing
`jsWhitespace` characters. -/
def trimList (s : List Char) : List Char :=
  ((s.dropWhile jsWhitespace).reverse.dropWhile jsWhitespace).reverse

/-! ## Structural chunker (`smartSplitChunks`, src/server/index.js lines 119-164) -/

/-- The mutable scan state of `smartSplitChunks`: emitted chunks, the growing
buffer `current`, the signed bracket counter, the in-string flag and the
one-character escape flag. -/
structure SplitState where
  chunks : List (List Char)
  current : List Char
  braceCount : Int
  inString : Bool
  escapeNext : Bool

/-- Initial state of the `smartSplitChunks` scan. -/
def splitInit : SplitState := ⟨[], [], 0, false, false⟩

/-- The in-string flag after processing `c` in the non-escape branch of the
loop: toggled by `if (char === '"' && !escapeNext)`. -/
def scanQuoted (st : SplitState) (c : Char) : Bool :=
  if c = '"' ∧ st.escapeNext = false then !st.inString else st.inString

/-- The bracket counter after processing `c` in the non-escape branch:
incremented on an opening brace or bracket, decremented on a closing one, but
only when the post-toggle in-string flag is false (`if (!inString)`). -/
def scanDepth (st : SplitState) (c : Char) : Int :=
  if scanQuoted st c = false then
    let b1 := if c = lbrace ∨ c = '[' then st.braceCount + 1 else st.braceCount
    if c = rbrace ∨ c = ']' then b1 - 1 else b1
  else st.braceCount

/-- The flush condition `current.length >= maxLength && braceCount === 0 &&
!inString`, evaluated after `c` was appended. -/
def flushCond (L : Nat) (st : SplitState) (c : Char) : Prop :=
  L ≤ (st.current ++ [c]).length ∧ scanDepth st c = 0 ∧ scanQuoted st c = false

instance (L : Nat) (st : SplitState) (c : Char) : Decidable (flushCond L st c) := by
  unfold flushCond
  infer_instance

/-- One iteration of the `for` loop of `smartSplitChunks` on character `c`:
escape handling, string toggling, depth bookkeeping, appending `c` to the
buffer, and flushing the buffer as a trimmed chunk when the flush condition
holds. -/
def splitStep (L : Nat) (st : SplitState) (c : Char) : SplitState :=
  if st.escapeNext then
    { st with current := st.current ++ [c], escapeNext := false }
  else if c = '\\' then
    { st with current := st.current ++ [c], escapeNext := true }
  else
    { chunks := if flushCond L st c then st.chunks ++ [trimList (st.current ++ [c])] else st.chunks,
      current := if flushCond L st c then [] else st.current ++ [c],
      braceCount := scanDepth st c,
      inString := scanQuoted st c,
      escapeNext := false }

/-- The scan state after feeding the whole input through `splitStep`. -/
def splitFold (L : Nat) (s : List Char) : SplitState :=
  s.foldl (splitStep L) splitInit

/-- `smartSplitChunks(jsonStr, maxLength)` from src/server/index.js: run the
scan, push the trimmed remainder when it is non-empty, and drop empty chunks
(the final `.filter(c => c.length > 0)`). -/
def smartSplitChunks (s : List Char) (L : Nat) : List (List Char) :=
  let st := splitFold L s
  let chunks := if trimList st.current ≠ [] then st.chunks ++ [trimList st.current] else st.chunks
  chunks.filter (fun c => decide (0 < c.length))

/-! ## The scanner described by the spec (section 4.1) -/

/-- Scanner state from the spec: a signed bracket depth, a quoted-string flag
and a one-character escape flag. -/
structure ScanSt where
  depth : Int
  quoted : Bool
  escaped : Bool

/-- Initial spec scanner state. -/
def scanInit : ScanSt := ⟨0, false, false⟩

/-- The quoted-string flag of the spec's scanner, toggled on an unescaped
quote (the one-character escape lookahead keeps an escaped quote from
toggling it). -/
def specQuoted (st : ScanSt) (c : Char) : Bool :=
  if c = '"' ∧ st.escaped = false then !st.quoted else st.quoted

/-- The signed depth counter of the spec's scanner, incremented on an opening
brace or bracket and decremented on a closing one, updated only outside
strings. -/
def specDepth (st : ScanSt) (c : Char) : Int :=
  if specQuoted st c = false then
    let b1 := if c = lbrace ∨ c = '[' then st.depth + 1 else st.depth
    if c = rbrace ∨ c = ']' then b1 - 1 else b1
  else st.depth

/-- One step of the scanner described in the spec (section 4.1). -/
def specStep (st : ScanSt) (c : Char) : ScanSt :=
  if st.escaped then ⟨st.depth, st.quoted, false⟩
  else if c = '\\' then ⟨st.depth, st.quoted, true⟩
  else ⟨specDepth st c, specQuoted st c, false⟩

/-- Spec scanner state after scanning a whole prefix. -/
def scanList (s : List Char) : ScanSt := s.foldl specStep scanInit

/-- Forget the chunk buffers, keeping only the scanner fields. -/
def projScan (st : SplitState) : ScanSt := ⟨st.braceCount, st.inString, st.escapeNext⟩

lemma projScan_splitStep (L : Nat) (st : SplitState) (c : Char) :
    projScan (splitStep L st c) = specStep (projScan st) c := by
  by_cases e1 : st.escapeNext = true
  · simp [splitStep, specStep, projScan, e1]
  · by_cases e2 : c = '\\'
    · simp [splitStep, specStep, projScan, e1, e2]
    · simp [splitStep, specStep, projScan, e1, e2, scanDepth, specDepth, scanQuoted, specQuoted]

lemma projScan_splitFold (L : Nat) (s : List Char) :
    projScan (splitFold L s) = scanList s := by
  unfold splitFold scanList
  have h : ∀ (l : List Char) (st : SplitState),
      projScan (l.foldl (splitStep L) st) = l.foldl specStep (projScan st) := by
    intro l
    induction l with
    | nil => intro st; rfl
    | cons c t ih =>
      intro st
      simp only [List.foldl_cons]
      rw [ih, projScan_splitStep]
  exact h s splitInit

/-- A step that grows the chunk list is a flush, and a flush happens only with
zero bracket depth and outside a string. -/
lemma flush_state (L : Nat) (st : SplitState) (c : Char)
    (h : st.chunks.length < (splitStep L st c).chunks.length) :
    (splitStep L st c).braceCount = 0 ∧ (splitStep L st c).inString = false := by
  by_cases e1 : st.escapeNext = true
  · simp [splitStep, e1] at h
  · by_cases e2 : c = '\\'
    · simp [splitStep, e1, e2] at h
    · by_cases hfl : flushCond L st c
      · have hb : (splitStep L st c).braceCount = scanDepth st c := by
          simp [splitStep, e1, e2]
        have hi : (splitStep L st c).inString = scanQuoted st c := by
          simp [splitStep, e1, e2]
        rw [hb, hi]
        exact ⟨hfl.2.1, hfl.2.2⟩
      · simp [splitStep, e1, e2, hfl] at h

lemma noWs_trim_id (l : List Char) (h : ∀ c ∈ l, jsWhitespace c = false) :
    trimList l = l := by
  have drop_id : ∀ (m : List Char), (∀ c ∈ m, jsWhitespace c = false) →
      m.dropWhile jsWhitespace = m := by
    intro m hm
    cases m with
    | nil => rfl
    | cons a t =>
      rw [List.dropWhile_cons, hm a (by simp)]
      simp
  unfold trimList
  rw [drop_id l h, drop_id l.reverse (by intro c hc; exact h c (List.mem_reverse.mp hc)),
    List.reverse_reverse]

lemma c1_invariant (L : Nat) (s : List Char) :
    ∀ st : SplitState, (∀ c ∈ s, jsWhitespace c = false) →
    (∀ ch ∈ st.chunks, ch ≠ [] ∧ ∀ c ∈ ch, jsWhitespace c = false) →
    (∀ c ∈ st.current, jsWhitespace c = false) →
    (s.foldl (splitStep L) st).chunks.flatten ++ (s.foldl (splitStep L) st).current
        = st.chunks.flatten ++ st.current ++ s
      ∧ (∀ ch ∈ (s.foldl (splitStep L) st).chunks,
          ch ≠ [] ∧ ∀ c ∈ ch, jsWhitespace c = false)
      ∧ (∀ c ∈ (s.foldl (splitStep L) st).current, jsWhitespace c = false) := by
  induction s with
  | nil => intro st _ h2 h3; exact ⟨by simp, h2, h3⟩
  | cons a t ih =>
    intro st h1 h2 h3
    have ha : jsWhitespace a = false := h1 a (by simp)
    have ht : ∀ c ∈ t, jsWhitespace c = false := fun c hc => h1 c (by simp [hc])
    have hcur : ∀ c ∈ st.current ++ [a], jsWhitespace c = false := by
      intro c hc
      rcases List.mem_append.mp hc with h | h
      · exact h3 c h
      · simp at h; subst h; exact ha
    simp only [List.foldl_cons]
    have step_ok :
        (splitStep L st a).chunks.flatten ++ (splitStep L st a).current
            = st.chunks.flatten ++ st.current ++ [a]
          ∧ (∀ ch ∈ (splitStep L st a).chunks,
              ch ≠ [] ∧ ∀ c ∈ ch, jsWhitespace c = false)
          ∧ (∀ c ∈ (splitStep L st a).current, jsWhitespace c = false) := by
      by_cases e1 : st.escapeNext = true
      · have hstep : splitStep L st a = { st with current := st.current ++ [a], escapeNext := false } := by
          simp [splitStep, e1]
        rw [hstep]
        exact ⟨by simp, h2, hcur⟩
      · by_cases e2 : a = '\\'
        · have hstep : splitStep L st a = { st with current := st.current ++ [a], escapeNext := true } := by
            simp [splitStep, e1, e2]
          rw [hstep]
          exact ⟨by simp, h2, hcur⟩
        · by_cases hfl : flushCond L st a
          · have hstep : splitStep L st a =
                ⟨st.chunks ++ [trimList (st.current ++ [a])], [], scanDepth st a,
                  scanQuoted st a, false⟩ := by
              simp [splitStep, e1, e2, hfl]
            rw [hstep]
            refine ⟨?_, ?_, by simp⟩
            · simp only [List.flatten_append, List.flatten_cons, List.flatten_nil,
                List.append_nil]
              rw [noWs_trim_id _ hcur]
              simp
            · intro ch hch
              rcases List.mem_append.mp hch with h | h
              · exact h2 ch h
              · simp at h
                subst h
                rw [noWs_trim_id _ hcur]
                exact ⟨by simp, hcur⟩
          · have hstep : splitStep L st a =
                ⟨st.chunks, st.current ++ [a], scanDepth st a, scanQuoted st a, false⟩ := by
              simp [splitStep, e1, e2, hfl]
            rw [hstep]
            exact ⟨by simp, h2, hcur⟩
    obtain ⟨ihA, ihB, ihC⟩ := ih (splitStep L st a) ht step_ok.2.1 step_ok.2.2
    refine ⟨?_, ihB, ihC⟩
    rw [ihA, step_ok.1]
    simp

lemma filter_nonempty_id (l : List (List Char)) (h : ∀ ch ∈ l, ch ≠ []) :
    l.filter (fun c => decide (0 < c.length)) = l := by
  apply List.filter_eq_self.mpr
  intro a ha
  have := h a ha
  simp [List.length_pos]
  exact this

/-- C1 (counterexample): on the input `"a "` with limit 1 the chunker trims
the flushed chunks, so concatenating its output gives `"a"`, not the input. -/
theorem smartSplit_concat_cex :
    ¬ ((smartSplitChunks (("a ").toList) 1).flatten = ("a ").toList) := by
  decide

/-- C1 (amended): for every input string containing no JavaScript whitespace
character and every positive chunk-size limit, concatenating in order the
segments returned by `smartSplitChunks` reproduces the input exactly. -/
theorem smartSplit_concat (s : List Char) (L : Nat) (hL : 0 < L)
    (hws : ∀ c ∈ s, jsWhitespace c = false) :
    (smartSplitChunks s L).flatten = s := by
  have hfold : splitFold L s = s.foldl (splitStep L) splitInit := rfl
  obtain ⟨hA, hB, hC⟩ := c1_invariant L s splitInit hws (by simp [splitInit]) (by simp [splitInit])
  rw [← hfold] at hA hB hC
  simp only [smartSplitChunks]
  have hA' : (splitFold L s).chunks.flatten ++ (splitFold L s).current = s := by
    rw [hA]
    simp [splitInit]
  have htrim : trimList (splitFold L s).current = (splitFold L s).current := noWs_trim_id _ hC
  by_cases hcur : trimList (splitFold L s).current ≠ []
  · rw [if_pos hcur, filter_nonempty_id]
    · simp only [List.flatten_append, List.flatten_cons, List.flatten_nil, List.append_nil]
      rw [htrim, hA']
    · intro ch hch
      rcases List.mem_append.mp hch with h | h
      · exact (hB ch h).1
      · simp at h; subst h; exact hcur
  · rw [if_neg hcur, filter_nonempty_id _ (fun ch hch => (hB ch hch).1)]
    push_neg at hcur
    rw [htrim] at hcur
    conv_rhs => rw [← hA']
    rw [hcur]
    simp

/-- C1 witness: a concrete whitespace-free JSON string and a positive limit on
which the amended statement is checked. -/
theorem smartSplit_concat_witness :
    0 < 3 ∧ (∀ c ∈ ("\x7b\"a\":1\x7d").toList, jsWhitespace c = false) ∧
      (smartSplitChunks (("\x7b\"a\":1\x7d").toList) 3).flatten = ("\x7b\"a\":1\x7d").toList :=
  ⟨by decide, by decide, smartSplit_concat (("\x7b\"a\":1\x7d").toList) 3 (by decide) (by decide)⟩

/-- C2: every chunk boundary of `smartSplitChunks` (a flush performed while
processing the character `c` at the end of the prefix `p` of the input) occurs
only where the spec's scanner — bracket depth updated only outside strings,
in-string flag toggled on unescaped quotes with an escaped quote `\"` not
toggling it — reports depth zero and not-inside-a-string. -/
theorem chunkBoundary_safe (s p rest : List Char) (c : Char) (L : Nat)
    (hs : s = p ++ c :: rest)
    (hflush : (splitFold L p).chunks.length < (splitFold L (p ++ [c])).chunks.length) :
    (scanList (p ++ [c])).depth = 0 ∧ (scanList (p ++ [c])).quoted = false := by
  have hstep : splitFold L (p ++ [c]) = splitStep L (splitFold L p) c := by
    unfold splitFold
    rw [List.foldl_append]
    rfl
  rw [hstep] at hflush
  obtain ⟨hd, hq⟩ := flush_state L (splitFold L p) c hflush
  have hproj := projScan_splitFold L (p ++ [c])
  rw [hstep] at hproj
  constructor
  · rw [← hproj]
    exact hd
  · rw [← hproj]
    exact hq

/-- C2 witness: in `"{}[]"` with limit 2 a flush occurs right after the `}`
closing the first object, and the scanner is at depth 0 outside a string
there. -/
theorem chunkBoundary_safe_witness :
    ("\x7b\x7d[]").toList = ("\x7b").toList ++ '\x7d' :: ("[]").toList ∧
      (splitFold 2 (("\x7b").toList)).chunks.length
        < (splitFold 2 (("\x7b").toList ++ ['\x7d'])).chunks.length ∧
      (scanList (("\x7b").toList ++ ['\x7d'])).depth = 0 ∧
      (scanList (("\x7b").toList ++ ['\x7d'])).quoted = false :=
  ⟨by decide, by decide,
    chunkBoundary_safe (("\x7b\x7d[]").toList) (("\x7b").toList) (("[]").toList) '\x7d' 2
      (by decide) (by decide)⟩

lemma no_flush_prefix (L : Nat) (p : List Char)
    (h : ∀ q, q ≠ [] → q <+: p → (scanList q).depth ≠ 0) :
    splitFold L p = ⟨[], p, (scanList p).depth, (scanList p).quoted, (scanList p).escaped⟩ := by
  induction p using List.reverseRecOn with
  | nil => rfl
  | append_singleton q c ih =>
    have hq : ∀ r, r ≠ [] → r <+: q → (scanList r).depth ≠ 0 := by
      intro r hr hpre
      exact h r hr (hpre.trans ⟨[c], rfl⟩)
    have hfold : splitFold L (q ++ [c]) = splitStep L (splitFold L q) c := by
      unfold splitFold
      rw [List.foldl_append]
      rfl
    have hscan : scanList (q ++ [c]) = specStep (scanList q) c := by
      unfold scanList
      rw [List.foldl_append]
      rfl
    have hdepth : (scanList (q ++ [c])).depth ≠ 0 :=
      h (q ++ [c]) (by simp) List.prefix_rfl
    rw [hfold, ih hq, hscan]
    rw [hscan] at hdepth
    by_cases e1 : (scanList q).escaped = true
    · have hl : splitStep L ⟨[], q, (scanList q).depth, (scanList q).quoted, (scanList q).escaped⟩ c
          = ⟨[], q ++ [c], (scanList q).depth, (scanList q).quoted, false⟩ := by
        simp [splitStep, e1]
      have hr : specStep (scanList q) c = ⟨(scanList q).depth, (scanList q).quoted, false⟩ := by
        simp [specStep, e1]
      rw [hl, hr]
    · have hesc : (scanList q).escaped = false := by
        cases hsc : (scanList q).escaped
        · rfl
        · exact absurd hsc e1
      rw [hesc]
      by_cases e2 : c = '\\'
      · have hr : specStep (scanList q) c = ⟨(scanList q).depth, (scanList q).quoted, true⟩ := by
          simp [specStep, e1, e2]
        rw [hr]
        simp [splitStep, e2]
      · have hr : specStep (scanList q) c
            = ⟨specDepth (scanList q) c, specQuoted (scanList q) c, false⟩ := by
          simp [specStep, e1, e2]
        have hdep2 : scanDepth ⟨[], q, (scanList q).depth, (scanList q).quoted, false⟩ c
            = specDepth (scanList q) c := by
          simp [scanDepth, specDepth, scanQuoted, specQuoted, hesc]
        have hq2 : scanQuoted ⟨[], q, (scanList q).depth, (scanList q).quoted, false⟩ c
            = specQuoted (scanList q) c := by
          simp [scanQuoted, specQuoted, hesc]
        rw [hr] at hdepth
        have hdepth' : specDepth (scanList q) c ≠ 0 := hdepth
        have hnofl : ¬ flushCond L ⟨[], q, (scanList q).depth, (scanList q).quoted, false⟩ c := by
          intro hfl
          apply hdepth'
          rw [← hdep2]
          exact hfl.2.1
        rw [hr]
        simp [splitStep, e2, hnofl, hdep2, hq2]

lemma trim_ne_nil_of_head (h : Char) (t : List Char) (hh : jsWhitespace h = false) :
    trimList (h :: t) ≠ [] := by
  unfold trimList
  intro hcon
  have h1 : (h :: t).dropWhile jsWhitespace = h :: t := by
    rw [List.dropWhile_cons, hh]
    simp
  rw [h1] at hcon
  have h2 : ((h :: t).reverse.dropWhile jsWhitespace) = [] := by
    have := congrArg List.reverse hcon
    simpa using this
  have hmem : h ∈ (h :: t).reverse := by simp
  have hsub := List.dropWhile_eq_nil_iff.mp h2 h hmem
  rw [hh] at hsub
  exact Bool.false_ne_true hsub

lemma last_step_shape (L : Nat) (p : List Char) (c : Char)
    (hp : ∀ q, q ≠ [] → q <+: p → (scanList q).depth ≠ 0) :
    ((splitFold L (p ++ [c])).chunks = [] ∧ (splitFold L (p ++ [c])).current = p ++ [c])
    ∨ ((splitFold L (p ++ [c])).chunks = [trimList (p ++ [c])]
        ∧ (splitFold L (p ++ [c])).current = []) := by
  have hfold : splitFold L (p ++ [c]) = splitStep L (splitFold L p) c := by
    unfold splitFold
    rw [List.foldl_append]
    rfl
  rw [hfold, no_flush_prefix L p hp]
  by_cases e1 : (scanList p).escaped = true
  · left
    constructor <;> simp [splitStep, e1]
  · have hesc : (scanList p).escaped = false := by
      cases hsc : (scanList p).escaped
      · rfl
      · exact absurd hsc e1
    rw [hesc]
    by_cases e2 : c = '\\'
    · left
      constructor <;> simp [splitStep, e2]
    · by_cases hfl : flushCond L ⟨[], p, (scanList p).depth, (scanList p).quoted, false⟩ c
      · right
        constructor <;> simp [splitStep, e2, hfl]
      · left
        constructor <;> simp [splitStep, e2, hfl]

/-- C9: if the input is the serialization of a single top-level object or
array — it starts with an opening brace or bracket and the scanner's bracket
depth returns to zero only at the final character — then `smartSplitChunks`
returns exactly one segment, for every `maxLength`. -/
theorem singleTopLevel_oneChunk (s : List Char) (L : Nat) (hne : s ≠ [])
    (hhead : s.head? = some lbrace ∨ s.head? = some '[')
    (hdep : ∀ k, k < s.length → 0 < k → (scanList (s.take k)).depth ≠ 0) :
    (smartSplitChunks s L).length = 1 := by
  have hdep' : ∀ q, q ≠ [] → q.length < s.length → q <+: s → (scanList q).depth ≠ 0 := by
    intro q hq hlen hpre
    have hqt : q = s.take q.length := List.prefix_iff_eq_take.mp hpre
    have hk := hdep q.length hlen (List.length_pos.mpr hq)
    rw [← hqt] at hk
    exact hk
  obtain ⟨p, c, rfl⟩ : ∃ p c, s = p ++ [c] := by
    rcases List.eq_nil_or_concat s with h | ⟨p, c, h⟩
    · exact absurd h hne
    · exact ⟨p, c, by rw [h, List.concat_eq_append]⟩
  have hp : ∀ q, q ≠ [] → q <+: p → (scanList q).depth ≠ 0 := by
    intro q hq hpre
    refine hdep' q hq ?_ (hpre.trans ⟨[c], rfl⟩)
    calc q.length ≤ p.length := hpre.length_le
      _ < (p ++ [c]).length := by simp
  have htr : trimList (p ++ [c]) ≠ [] := by
    cases hp0 : p ++ [c] with
    | nil => simp at hp0
    | cons h0 t0 =>
      rw [hp0] at hhead
      simp at hhead
      have hh0 : jsWhitespace h0 = false := by
        rcases hhead with h | h <;> (subst h; decide)
      exact trim_ne_nil_of_head h0 t0 hh0
  simp only [smartSplitChunks]
  rcases last_step_shape L p c hp with ⟨hch, hcu⟩ | ⟨hch, hcu⟩
  · rw [hch, hcu, if_pos htr, List.nil_append]
    rw [filter_nonempty_id]
    · rfl
    · intro ch hchm
      simp at hchm
      rw [hchm]
      exact htr
  · rw [hch, hcu]
    have hcond : ¬ (trimList ([] : List Char) ≠ []) := by decide
    rw [if_neg hcond]
    rw [filter_nonempty_id]
    · rfl
    · intro ch hchm
      simp at hchm
      rw [hchm]
      exact htr

/-- C9 witness: the compact serialization of one object is returned as a
single chunk even with a tiny `maxLength`. -/
theorem singleTopLevel_oneChunk_witness :
    ("\x7b\"a\":1\x7d").toList ≠ [] ∧
      (smartSplitChunks (("\x7b\"a\":1\x7d").toList) 3).length = 1 :=
  ⟨by decide,
    singleTopLevel_oneChunk (("\x7b\"a\":1\x7d").toList) 3 (by decide) (by decide) (by decide)⟩

/-! ## JSON healers

Two healers exist in the repository: `healJSON` in src/server/index.js
(lines 167-193) and the alternate `healJSON` in the unnamed server file
(lines 136-165), embedded here as `healJSON` and `healJSONAlt`.  The global
regex replaces are modelled by fuel-indexed scans (the fuel is the input
length, which always suffices because every step consumes at least one input
character); a JavaScript global replace scans left to right and resumes after
each match, which is exactly what these scans do. -/

/-- Model of the global replace of the literal pattern `pat` followed by an
optional newline (the regexes `/```json\n?/g` and `/```\n?/g` of the server
healer): scan left to right, and on a match drop the pattern and one
following newline and resume after it. -/
def stripPatNlF (pat : List Char) : Nat → List Char → List Char
  | 0, s => s
  | _ + 1, [] => []
  | fuel + 1, c :: rest =>
    if pat.isPrefixOf (c :: rest) then
      match rest.drop (pat.length - 1) with
      | '\n' :: rem => stripPatNlF pat fuel rem
      | rem => stripPatNlF pat fuel rem
    else c :: stripPatNlF pat fuel rest

/-- `stripPatNlF` with enough fuel for the whole input. -/
def stripPatNl (pat s : List Char) : List Char := stripPatNlF pat s.length s

/-- Model of the server regex `/,(\s*[}\]])/g → '$1'`: a comma followed by a
(maximal) whitespace run and a closing brace or bracket is replaced by the
whitespace run and the closer, dropping the comma. -/
def replTrailingCommaF : Nat → List Char → List Char
  | 0, s => s
  | _ + 1, [] => []
  | fuel + 1, c :: rest =>
    if c = ',' then
      match rest.dropWhile jsWhitespace with
      | d :: rest' =>
        if d = rbrace ∨ d = ']' then
          rest.takeWhile jsWhitespace ++ d :: replTrailingCommaF fuel rest'
        else c :: replTrailingCommaF fuel rest
      | [] => c :: replTrailingCommaF fuel rest
    else c :: replTrailingCommaF fuel rest

/-- `replTrailingCommaF` with enough fuel for the whole input. -/
def replTrailingComma (s : List Char) : List Char := replTrailingCommaF s.length s

/-- Model of the alternate healer's regexes `/,\s*}/g → "}"`, `/,\s*]/g →
"]"`, `/}\s*{/g → "},{"` and `/]\s*\[/g → "],["`: anchor character `a`
followed by a whitespace run and anchor `b` is replaced by `rep` (the
whitespace is dropped), scanning left to right and resuming after each
match. -/
def replAnchoredF (a b : Char) (rep : List Char) : Nat → List Char → List Char
  | 0, s => s
  | _ + 1, [] => []
  | fuel + 1, c :: rest =>
    if c = a then
      match rest.dropWhile jsWhitespace with
      | d :: rest' =>
        if d = b then rep ++ replAnchoredF a b rep fuel rest'
        else c :: replAnchoredF a b rep fuel rest
      | [] => c :: replAnchoredF a b rep fuel rest
    else c :: replAnchoredF a b rep fuel rest

/-- `replAnchoredF` with enough fuel for the whole input. -/
def replAnchored (a b : Char) (rep s : List Char) : List Char := replAnchoredF a b rep s.length s

/-- The server step `healed.replace(/([^\\])"/g, '$1"')`: each match (a
non-backslash character followed by a quote) is replaced by itself, so the
whole replace is the identity on every string. -/
def quoteFixSrv (s : List Char) : List Char := s

/-- The fence pattern of `/```json\n?/g`. -/
def fencePatJson : List Char := ("\x60\x60\x60json").toList

/-- The fence pattern of `/```\n?/g`. -/
def fencePat : List Char := ("\x60\x60\x60").toList

/-- Count the four bracket characters and append the deficit of closing
braces, then the deficit of closing brackets (all counts are taken before
anything is appended, exactly as in both healers). -/
def appendDeficits (t : List Char) : List Char :=
  t ++ List.replicate (t.count lbrace - t.count rbrace) rbrace
    ++ List.replicate (t.count '[' - t.count ']') ']'

/-- The alternate healer's `if (!healed.startsWith("{") &&
!healed.startsWith("["))` opener prepend. -/
def openerStep (t : List Char) : List Char :=
  if t.head? = some lbrace ∨ t.head? = some '[' then t else lbrace :: t

/-- The alternate healer's `if (!healed.endsWith("}") &&
!healed.endsWith("]"))` closer append. -/
def closerStep (t : List Char) : List Char :=
  if t.getLast? = some rbrace ∨ t.getLast? = some ']' then t else t ++ [rbrace]

/-- The structural tail of the alternate healer: opener prepend, closer
append, then deficit append. -/
def healTail (t : List Char) : List Char := appendDeficits (closerStep (openerStep t))

/-- `healJSON` from src/server/index.js: trim, strip fences, drop trailing
commas, the identity quote fix, then append the closer deficits. -/
def healJSON (text : List Char) : List Char :=
  appendDeficits (quoteFixSrv (replTrailingComma
    (stripPatNl fencePat (stripPatNl fencePatJson (trimList text)))))

/-- `healJSON` from the alternate server file: trim, drop trailing commas,
insert separating commas between adjacent literals, then opener, closer and
deficit appends.  It performs no fence stripping. -/
def healJSONAlt (jsonString : List Char) : List Char :=
  healTail (replAnchored ']' '[' ([']', ',', '['])
    (replAnchored rbrace lbrace ([rbrace, ',', lbrace])
      (replAnchored ',' ']' ([']'])
        (replAnchored ',' rbrace ([rbrace]) (trimList jsonString)))))

/-- The trim plus comma/separator rewrite stage shared by the alternate
healer's pipeline: trim, drop trailing commas before `}` and `]`, and insert
separating commas (`}{` to `},{`, `][` to `],[`). -/
def altRewriteStage (s : List Char) : List Char :=
  replAnchored ']' '[' ([']', ',', '['])
    (replAnchored rbrace lbrace ([rbrace, ',', lbrace])
      (replAnchored ',' ']' ([']'])
        (replAnchored ',' rbrace ([rbrace]) (trimList s))))

/-- Modelled from the spec: the closer matching the text's opening bracket —
`]` when the text starts with `[`, `}` otherwise. -/
def matchingCloser (t : List Char) : Char :=
  if t.head? = some '[' then ']' else rbrace

/-- Modelled from the spec: "if it does not end with the matching closer,
append one" — append the matching closer when the text does not already end
with it. -/
def specCloserStep (t : List Char) : List Char :=
  if t.getLast? = some (matchingCloser t) then t else t ++ [matchingCloser t]

/-- Modelled from the spec (section 4.4): the healer pipeline as the spec
words it — strip markdown code-fence markers; remove trailing commas before a
closing brace or bracket; insert a separating comma between adjacent literals
(`}{` to `},{`, `][` to `],[`); prepend an opener when the text does not
start with one (the spec does not say which opener; `{` is used, as in both
implementations); append the matching closer when the text does not end with
it; and append the deficit of unmatched closers.  (Both implementations trim
first, so the spec pipeline is applied to the trimmed text.) -/
def healSpec (text : List Char) : List Char :=
  appendDeficits (specCloserStep (openerStep
    (replAnchored ']' '[' ([']', ',', '['])
      (replAnchored rbrace lbrace ([rbrace, ',', lbrace])
        (replAnchored ',' ']' ([']'])
          (replAnchored ',' rbrace ([rbrace])
            (stripPatNl fencePat (stripPatNl fencePatJson (trimList text)))))))))

lemma getLast?_append_replicate (l : List Char) (n : Nat) (c : Char) :
    (l ++ List.replicate n c).getLast? = if n = 0 then l.getLast? else some c := by
  cases n with
  | zero => simp
  | succ m =>
    rw [List.replicate_succ', ← List.append_assoc, List.getLast?_concat]
    simp

lemma appendDeficits_head (t : List Char) (ht : t ≠ []) :
    (appendDeficits t).head? = t.head? := by
  unfold appendDeficits
  obtain ⟨a, t', rfl⟩ : ∃ a t', t = a :: t' := by
    cases t with
    | nil => exact absurd rfl ht
    | cons a t' => exact ⟨a, t', rfl⟩
  simp

lemma healTail_head (t : List Char) :
    (healTail t).head? = some lbrace ∨ (healTail t).head? = some '[' := by
  unfold healTail
  have h1 : (openerStep t).head? = some lbrace ∨ (openerStep t).head? = some '[' := by
    unfold openerStep
    by_cases h : t.head? = some lbrace ∨ t.head? = some '['
    · rw [if_pos h]; exact h
    · rw [if_neg h]; left; rfl
  have hne : openerStep t ≠ [] := by
    intro hcon
    rcases h1 with h | h <;> (rw [hcon] at h; simp at h)
  have h2 : (closerStep (openerStep t)).head? = (openerStep t).head? := by
    unfold closerStep
    by_cases h : (openerStep t).getLast? = some rbrace ∨ (openerStep t).getLast? = some ']'
    · rw [if_pos h]
    · rw [if_neg h]
      obtain ⟨a, t', heq⟩ : ∃ a t', openerStep t = a :: t' := by
        cases hop : openerStep t with
        | nil => exact absurd hop hne
        | cons a t' => exact ⟨a, t', rfl⟩
      rw [heq]
      simp
  have hne2 : closerStep (openerStep t) ≠ [] := by
    intro hcon
    rw [hcon] at h2
    rcases h1 with h | h <;> (rw [← h2] at h; simp at h)
  rw [appendDeficits_head _ hne2, h2]
  exact h1

lemma healTail_last (t : List Char) :
    (healTail t).getLast? = some rbrace ∨ (healTail t).getLast? = some ']' := by
  unfold healTail appendDeficits
  set u := closerStep (openerStep t) with hu
  have hul : u.getLast? = some rbrace ∨ u.getLast? = some ']' := by
    rw [hu]
    unfold closerStep
    by_cases h : (openerStep t).getLast? = some rbrace ∨ (openerStep t).getLast? = some ']'
    · rw [if_pos h]; exact h
    · rw [if_neg h]; left; exact List.getLast?_concat _
  rw [getLast?_append_replicate]
  by_cases h2 : u.count '[' - u.count ']' = 0
  · rw [if_pos h2]
    rw [getLast?_append_replicate]
    by_cases h1 : u.count lbrace - u.count rbrace = 0
    · rw [if_pos h1]; exact hul
    · rw [if_neg h1]; left; rfl
  · rw [if_neg h2]
    right
    rfl

lemma appendDeficits_counts (t : List Char) :
    (appendDeficits t).count lbrace ≤ (appendDeficits t).count rbrace
      ∧ (appendDeficits t).count '[' ≤ (appendDeficits t).count ']' := by
  have h1 : (appendDeficits t).count lbrace = t.count lbrace := by
    unfold appendDeficits
    rw [List.count_append, List.count_append, List.count_replicate, List.count_replicate,
      if_neg (by decide : ¬((rbrace == lbrace) = true)),
      if_neg (by decide : ¬(((']' : Char) == lbrace) = true))]
    omega
  have h2 : (appendDeficits t).count rbrace
      = t.count rbrace + (t.count lbrace - t.count rbrace) := by
    unfold appendDeficits
    rw [List.count_append, List.count_append, List.count_replicate, List.count_replicate,
      if_pos (by decide : (rbrace == rbrace) = true),
      if_neg (by decide : ¬(((']' : Char) == rbrace) = true))]
    omega
  have h3 : (appendDeficits t).count '[' = t.count '[' := by
    unfold appendDeficits
    rw [List.count_append, List.count_append, List.count_replicate, List.count_replicate,
      if_neg (by decide : ¬((rbrace == '[') = true)),
      if_neg (by decide : ¬(((']' : Char) == '[') = true))]
    omega
  have h4 : (appendDeficits t).count ']'
      = t.count ']' + (t.count '[' - t.count ']') := by
    unfold appendDeficits
    rw [List.count_append, List.count_append, List.count_replicate, List.count_replicate,
      if_neg (by decide : ¬((rbrace == ']') = true)),
      if_pos (by decide : ((']' : Char) == ']') = true)]
    omega
  rw [h1, h2, h3, h4]
  omega

lemma appendDeficits_fix (t : List Char) :
    appendDeficits (appendDeficits t) = appendDeficits t := by
  have h := appendDeficits_counts t
  show appendDeficits t
      ++ List.replicate ((appendDeficits t).count lbrace - (appendDeficits t).count rbrace) rbrace
      ++ List.replicate ((appendDeficits t).count '[' - (appendDeficits t).count ']') ']'
    = appendDeficits t
  rw [Nat.sub_eq_zero_of_le h.1, Nat.sub_eq_zero_of_le h.2]
  simp

lemma healTail_fix (t : List Char) : healTail (healTail t) = healTail t := by
  have hh := healTail_head t
  have hl := healTail_last t
  show appendDeficits (closerStep (openerStep (healTail t))) = healTail t
  rw [show openerStep (healTail t) = healTail t from by unfold openerStep; exact if_pos hh]
  rw [show closerStep (healTail t) = healTail t from by unfold closerStep; exact if_pos hl]
  show appendDeficits (appendDeficits (closerStep (openerStep t)))
    = appendDeficits (closerStep (openerStep t))
  exact appendDeficits_fix _

/-- C5 (counterexample): neither healer is idempotent.  On `",,}"` the global
trailing-comma replace resumes after each match, so one pass leaves a new
`,}` pair that a second pass removes. -/
theorem heal_idem_cex :
    healJSONAlt (healJSONAlt ((",,\x7d").toList)) ≠ healJSONAlt ((",,\x7d").toList)
      ∧ healJSON (healJSON ((",,\x7d").toList)) ≠ healJSON ((",,\x7d").toList) := by
  decide

/-- C5 (amended): the text-rewrite repairs (trim, fence stripping and the
comma/separator regex replaces) are the only source of non-idempotence; the
structural repairs (opener prepend, closer append, deficit append — and the
identity quote fix) never destroy idempotence.  Concretely: whenever the
healed output is a fixed point of its healer's text rewrites, healing is
idempotent at that input — for the alternate healer and for the server healer
alike. -/
theorem heal_idem_conditional :
    (∀ x : List Char,
        trimList (healJSONAlt x) = healJSONAlt x →
        replAnchored ',' rbrace ([rbrace]) (healJSONAlt x) = healJSONAlt x →
        replAnchored ',' ']' ([']']) (healJSONAlt x) = healJSONAlt x →
        replAnchored rbrace lbrace ([rbrace, ',', lbrace]) (healJSONAlt x) = healJSONAlt x →
        replAnchored ']' '[' ([']', ',', '[']) (healJSONAlt x) = healJSONAlt x →
        healJSONAlt (healJSONAlt x) = healJSONAlt x)
    ∧ (∀ x : List Char,
        trimList (healJSON x) = healJSON x →
        stripPatNl fencePatJson (healJSON x) = healJSON x →
        stripPatNl fencePat (healJSON x) = healJSON x →
        replTrailingComma (healJSON x) = healJSON x →
        healJSON (healJSON x) = healJSON x) := by
  constructor
  · intro x h1 h2 h3 h4 h5
    show healTail (replAnchored ']' '[' ([']', ',', '['])
        (replAnchored rbrace lbrace ([rbrace, ',', lbrace])
          (replAnchored ',' ']' ([']'])
            (replAnchored ',' rbrace ([rbrace]) (trimList (healJSONAlt x))))))
      = healJSONAlt x
    rw [h1, h2, h3, h4, h5]
    exact healTail_fix (replAnchored ']' '[' ([']', ',', '['])
      (replAnchored rbrace lbrace ([rbrace, ',', lbrace])
        (replAnchored ',' ']' ([']'])
          (replAnchored ',' rbrace ([rbrace]) (trimList x)))))
  · intro x h1 h2 h3 h4
    show appendDeficits (quoteFixSrv (replTrailingComma
        (stripPatNl fencePat (stripPatNl fencePatJson (trimList (healJSON x))))))
      = healJSON x
    rw [h1, h2, h3, h4]
    show appendDeficits (healJSON x) = healJSON x
    exact appendDeficits_fix (quoteFixSrv (replTrailingComma
      (stripPatNl fencePat (stripPatNl fencePatJson (trimList x)))))

/-- C5 witness: on an already-clean JSON object both healers are fixed points
of their text rewrites, so the conditional idempotence applies. -/
theorem heal_idem_conditional_witness :
    healJSONAlt (healJSONAlt (("\x7b\"a\":1\x7d").toList))
        = healJSONAlt (("\x7b\"a\":1\x7d").toList)
      ∧ healJSON (healJSON (("\x7b\"a\":1\x7d").toList))
        = healJSON (("\x7b\"a\":1\x7d").toList) :=
  ⟨heal_idem_conditional.1 (("\x7b\"a\":1\x7d").toList)
      (by decide) (by decide) (by decide) (by decide) (by decide),
    heal_idem_conditional.2 (("\x7b\"a\":1\x7d").toList)
      (by decide) (by decide) (by decide) (by decide)⟩

lemma mem_of_mem_trim (c : Char) (s : List Char) (h : c ∈ trimList s) : c ∈ s := by
  unfold trimList at h
  rw [List.mem_reverse] at h
  have h2 := (List.dropWhile_sublist jsWhitespace).subset h
  rw [List.mem_reverse] at h2
  exact (List.dropWhile_sublist jsWhitespace).subset h2

lemma stripPatNlF_id (p' : List Char) (fuel : Nat) :
    ∀ s : List Char, btick ∉ s → stripPatNlF (btick :: p') fuel s = s := by
  induction fuel with
  | zero => intro s _; rfl
  | succ n ih =>
    intro s hb
    cases s with
    | nil => rfl
    | cons c rest =>
      have hc : ¬ (btick = c) := by
        intro h
        exact hb (by simp [← h])
      have hbr : btick ∉ rest := fun h => hb (by simp [h])
      have hpre : ((btick :: p').isPrefixOf (c :: rest)) = false := by
        show (btick == c && p'.isPrefixOf rest) = false
        rw [beq_eq_false_iff_ne.mpr hc]
        rfl
      simp only [stripPatNlF]
      rw [if_neg (by simp [hpre])]
      rw [ih rest hbr]

lemma stripPatNl_fence_id (s : List Char) (hb : btick ∉ s) :
    stripPatNl fencePatJson s = s ∧ stripPatNl fencePat s = s := by
  constructor
  · show stripPatNlF fencePatJson s.length s = s
    have : fencePatJson = btick :: ("\x60\x60json").toList := by decide
    rw [this]
    exact stripPatNlF_id _ _ s hb
  · show stripPatNlF fencePat s.length s = s
    have : fencePat = btick :: ("\x60\x60").toList := by decide
    rw [this]
    exact stripPatNlF_id _ _ s hb

/-- C6 (counterexample): neither healer applies exactly the repairs listed by
the spec.  On `"}{"` the server healer inserts no separating comma and adds
no opener/closer; on `"[1"` the alternate healer appends `}` (its closer
step ignores the spec's "matching" qualifier) and then the bracket deficit,
giving `"[1}]"` where the spec's pipeline gives `"[1]"`; and on
`` "```" `` the alternate healer strips no fence. -/
theorem healSpec_cex :
    healSpec (("\x7d\x7b").toList) ≠ healJSON (("\x7d\x7b").toList)
      ∧ healSpec (("[1").toList) ≠ healJSONAlt (("[1").toList)
      ∧ healSpec (("\x60\x60\x60").toList) ≠ healJSONAlt (("\x60\x60\x60").toList) := by
  decide

/-- C6 (amended): the alternate healer differs from the spec's pipeline in
two repairs — it strips no fences, and its closer step appends `}` whenever
the text does not end in `}` or `]` instead of appending the matching
closer.  On every backtick-free input for which the closer repair is vacuous
— the text after the comma/separator rewrites and the opener prepend already
ends with its matching closer — the alternate healer agrees exactly with the
spec pipeline. -/
theorem healAlt_matches_spec (s : List Char) (hb : btick ∉ s)
    (hcl : (openerStep (altRewriteStage s)).getLast?
        = some (matchingCloser (openerStep (altRewriteStage s)))) :
    healJSONAlt s = healSpec s := by
  have hb' : btick ∉ trimList s := fun h => hb (mem_of_mem_trim _ _ h)
  have halt : healJSONAlt s = appendDeficits (closerStep (openerStep (altRewriteStage s))) := rfl
  have hspec : healSpec s = appendDeficits (specCloserStep (openerStep (altRewriteStage s))) := by
    unfold healSpec altRewriteStage
    rw [(stripPatNl_fence_id (trimList s) hb').1, (stripPatNl_fence_id (trimList s) hb').2]
  have h1 : specCloserStep (openerStep (altRewriteStage s)) = openerStep (altRewriteStage s) := by
    unfold specCloserStep
    rw [if_pos hcl]
  have h2 : closerStep (openerStep (altRewriteStage s)) = openerStep (altRewriteStage s) := by
    unfold closerStep
    apply if_pos
    unfold matchingCloser at hcl
    by_cases hh : (openerStep (altRewriteStage s)).head? = some '['
    · right
      rw [hcl, if_pos hh]
    · left
      rw [hcl, if_neg hh]
  rw [halt, hspec, h1, h2]

/-- C6 witness: on `"[1]"` the rewrite stage is the identity, the text ends
with its matching closer `]`, and the alternate healer and the spec pipeline
agree. -/
theorem healAlt_matches_spec_witness :
    btick ∉ ("[1]").toList
      ∧ (openerStep (altRewriteStage (("[1]").toList))).getLast?
          = some (matchingCloser (openerStep (altRewriteStage (("[1]").toList))))
      ∧ healJSONAlt (("[1]").toList) = healSpec (("[1]").toList) :=
  ⟨by decide, by decide, healAlt_matches_spec (("[1]").toList) (by decide) (by decide)⟩

/-! ## Retry / fallback orchestrator (`withRetryAndFallback`)

The server version (src/server/index.js lines 196-223) starts with a 500ms
delay, uses the fallback model from attempt index 2 on, sleeps and doubles the
delay between retryable failures, and throws an exhausted-retries error after
the loop.  The alternate version (unnamed file lines 70-99) starts at 300ms,
always calls the primary model, additionally tries the fallback model once on
attempt index 2, and otherwise behaves the same.  The `async` loops are
embedded as pure recursions producing a trace: the outcome, the list of sleep
durations and the models passed to each invocation of `fn`. -/

/-- The two model tiers. -/
inductive GModel where
  | primary
  | fallback
deriving DecidableEq

/-- A JavaScript error as the orchestrator observes it: an optional numeric
`status` field and the text of its string form (used for the `includes`
substring checks). -/
structure JsErr where
  status : Option Int
  text : List Char
deriving DecidableEq

/-- Substring test, modelling `String.prototype.includes`. -/
def hasSub (pat : List Char) : List Char → Bool
  | [] => pat.isEmpty
  | c :: rest => pat.isPrefixOf (c :: rest) || hasSub pat rest

/-- Server classification: `err.status === 429 || String(err).includes("429")
|| String(err).includes("quota")`. -/
def is429 (e : JsErr) : Bool :=
  e.status == some 429 || hasSub (("429").toList) e.text || hasSub (("quota").toList) e.text

/-- Server classification: `err.status === 503 || String(err).includes("503")`. -/
def is503 (e : JsErr) : Bool :=
  e.status == some 503 || hasSub (("503").toList) e.text

/-- Alternate-file classification of 429, which has no `"quota"` check. -/
def is429Alt (e : JsErr) : Bool :=
  e.status == some 429 || hasSub (("429").toList) e.text

/-- Alternate-file classification of 503. -/
def is503Alt (e : JsErr) : Bool :=
  e.status == some 503 || hasSub (("503").toList) e.text

/-- Outcome of a full orchestrator run: a successful value, a propagated
non-retryable error, or the terminal exhausted-retries error. -/
inductive RetryOutcome (α : Type) where
  | ok (a : α)
  | failed (e : JsErr)
  | exhausted
deriving DecidableEq

/-- Observable trace of an orchestrator run. -/
structure RetryTrace (α : Type) where
  result : RetryOutcome α
  sleeps : List Nat
  calls : List GModel
deriving DecidableEq

/-- The server retry loop, one recursion step per `for` iteration.  `left` is
the number of remaining iterations (`retries - attempt`), carried separately
so the recursion is structural. -/
def withRetrySrvAux {α : Type} (fn : GModel → Except JsErr α) (retries : Nat) :
    Nat → Nat → Nat → RetryTrace α
  | _, 0, _ => ⟨.exhausted, [], []⟩
  | attempt, left + 1, delay =>
    let model := if 2 ≤ attempt then GModel.fallback else GModel.primary
    match fn model with
    | Except.ok a => ⟨.ok a, [], [model]⟩
    | Except.error e =>
      if is429 e || is503 e then
        if attempt < retries - 1 then
          let t := withRetrySrvAux fn retries (attempt + 1) left (delay * 2)
          ⟨t.result, delay :: t.sleeps, model :: t.calls⟩
        else
          let t := withRetrySrvAux fn retries (attempt + 1) left delay
          ⟨t.result, t.sleeps, model :: t.calls⟩
      else ⟨.failed e, [], [model]⟩

/-- `withRetryAndFallback(fn, retries)` from src/server/index.js, with its
initial 500ms delay. -/
def withRetryAndFallback {α : Type} (fn : GModel → Except JsErr α) (retries : Nat) :
    RetryTrace α :=
  withRetrySrvAux fn retries 0 retries 500

/-- The alternate-file retry loop: every iteration calls the primary model; on
a retryable failure at attempt index 2 the fallback model is tried once (its
success returns, its failure is only logged), then the loop sleeps and doubles
the delay as in the server version. -/
def withRetryAltAux {α : Type} (fn : GModel → Except JsErr α) (retries : Nat) :
    Nat → Nat → Nat → RetryTrace α
  | _, 0, _ => ⟨.exhausted, [], []⟩
  | i, left + 1, delay =>
    match fn GModel.primary with
    | Except.ok a => ⟨.ok a, [], [GModel.primary]⟩
    | Except.error e =>
      if is429Alt e || is503Alt e then
        if i = 2 then
          match fn GModel.fallback with
          | Except.ok a => ⟨.ok a, [], [GModel.primary, GModel.fallback]⟩
          | Except.error _ =>
            if i < retries - 1 then
              let t := withRetryAltAux fn retries (i + 1) left (delay * 2)
              ⟨t.result, delay :: t.sleeps, GModel.primary :: GModel.fallback :: t.calls⟩
            else
              let t := withRetryAltAux fn retries (i + 1) left delay
              ⟨t.result, t.sleeps, GModel.primary :: GModel.fallback :: t.calls⟩
        else
          if i < retries - 1 then
            let t := withRetryAltAux fn retries (i + 1) left (delay * 2)
            ⟨t.result, delay :: t.sleeps, GModel.primary :: t.calls⟩
          else
            let t := withRetryAltAux fn retries (i + 1) left delay
            ⟨t.result, t.sleeps, GModel.primary :: t.calls⟩
      else ⟨.failed e, [], [GModel.primary]⟩

/-- `withRetryAndFallback(fn, retries)` from the alternate server file, with
its initial 300ms delay. -/
def withRetryAndFallbackAlt {α : Type} (fn : GModel → Except JsErr α) (retries : Nat) :
    RetryTrace α :=
  withRetryAltAux fn retries 0 retries 300

lemma cons_pow_shift (d n : Nat) :
    d :: (List.range n).map (fun i => d * 2 * 2 ^ i)
      = (List.range (n + 1)).map (fun i => d * 2 ^ i) := by
  induction n with
  | zero => simp [List.range_succ]
  | succ m ih =>
    rw [List.range_succ, List.map_append, ← List.cons_append, ih]
    conv_rhs => rw [List.range_succ, List.map_append]
    congr 1
    simp only [List.map_cons, List.map_nil]
    have harith : d * 2 * 2 ^ m = d * 2 ^ (m + 1) := by ring
    rw [harith]

lemma srv_calls_shift (attempt l : Nat) :
    (if 2 ≤ attempt then GModel.fallback else GModel.primary)
        :: (List.range l).map (fun j => if 2 ≤ attempt + 1 + j then GModel.fallback else GModel.primary)
      = (List.range (l + 1)).map (fun j => if 2 ≤ attempt + j then GModel.fallback else GModel.primary) := by
  induction l with
  | zero => simp [List.range_succ]
  | succ m ih =>
    rw [List.range_succ, List.map_append, ← List.cons_append, ih]
    conv_rhs => rw [List.range_succ, List.map_append]
    congr 1
    simp only [List.map_cons, List.map_nil]
    rw [show attempt + 1 + m = attempt + (m + 1) from by omega]

lemma alt_calls_shift (i l : Nat) :
    (if i = 2 then [GModel.primary, GModel.fallback] else [GModel.primary])
        ++ ((List.range l).map
            (fun j => if i + 1 + j = 2 then [GModel.primary, GModel.fallback] else [GModel.primary])).flatten
      = ((List.range (l + 1)).map
          (fun j => if i + j = 2 then [GModel.primary, GModel.fallback] else [GModel.primary])).flatten := by
  induction l with
  | zero => simp [List.range_succ]
  | succ m ih =>
    rw [List.range_succ, List.map_append, List.flatten_append, ← List.append_assoc, ih]
    conv_rhs => rw [List.range_succ, List.map_append, List.flatten_append]
    congr 1
    simp only [List.map_cons, List.map_nil, List.flatten_cons, List.flatten_nil]
    rw [show i + 1 + m = i + (m + 1) from by omega]

lemma withRetrySrvAux_exhaust {α : Type} (fn : GModel → Except JsErr α) (retries : Nat)
    (h : ∀ m, ∃ e, fn m = Except.error e ∧ (is429 e || is503 e) = true) :
    ∀ left attempt delay, attempt + left = retries →
      withRetrySrvAux fn retries attempt left delay =
        ⟨.exhausted, (List.range (left - 1)).map (fun i => delay * 2 ^ i),
          (List.range left).map (fun j => if 2 ≤ attempt + j then GModel.fallback else GModel.primary)⟩ := by
  intro left
  induction left with
  | zero => intro attempt delay _; rfl
  | succ l ih =>
    intro attempt delay hsum
    obtain ⟨e, hfe, hret⟩ := h (if 2 ≤ attempt then GModel.fallback else GModel.primary)
    simp only [withRetrySrvAux]
    rw [hfe]
    dsimp only
    rw [if_pos hret]
    rcases Nat.eq_zero_or_pos l with hl | hl
    · subst hl
      have hno : ¬ (attempt < retries - 1) := by omega
      rw [if_neg hno]
      have hbase : withRetrySrvAux fn retries (attempt + 1) 0 delay = ⟨.exhausted, [], []⟩ := rfl
      rw [hbase]
      simp [List.range_succ]
    · obtain ⟨l', rfl⟩ : ∃ l', l = l' + 1 := ⟨l - 1, by omega⟩
      have hyes : attempt < retries - 1 := by omega
      rw [if_pos hyes]
      rw [ih (attempt + 1) (delay * 2) (by omega)]
      show (⟨.exhausted,
          delay :: (List.range (l' + 1 - 1)).map (fun i => delay * 2 * 2 ^ i),
          (if 2 ≤ attempt then GModel.fallback else GModel.primary)
            :: (List.range (l' + 1)).map
                (fun j => if 2 ≤ attempt + 1 + j then GModel.fallback else GModel.primary)⟩ : RetryTrace α)
        = ⟨.exhausted, (List.range (l' + 2 - 1)).map (fun i => delay * 2 ^ i),
            (List.range (l' + 2)).map (fun j => if 2 ≤ attempt + j then GModel.fallback else GModel.primary)⟩
      rw [show l' + 1 - 1 = l' from rfl, show l' + 2 - 1 = l' + 1 from rfl]
      rw [cons_pow_shift, srv_calls_shift]

lemma withRetryAltAux_exhaust {α : Type} (fn : GModel → Except JsErr α) (retries : Nat)
    (h : ∀ m, ∃ e, fn m = Except.error e ∧ (is429Alt e || is503Alt e) = true) :
    ∀ left i delay, i + left = retries →
      withRetryAltAux fn retries i left delay =
        ⟨.exhausted, (List.range (left - 1)).map (fun k => delay * 2 ^ k),
          ((List.range left).map
            (fun j => if i + j = 2 then [GModel.primary, GModel.fallback] else [GModel.primary])).flatten⟩ := by
  intro left
  induction left with
  | zero => intro i delay _; rfl
  | succ l ih =>
    intro i delay hsum
    obtain ⟨e, hfe, hret⟩ := h GModel.primary
    obtain ⟨e2, hfe2, _⟩ := h GModel.fallback
    simp only [withRetryAltAux]
    rw [hfe]
    dsimp only
    rw [if_pos hret]
    by_cases h2 : i = 2
    · rw [if_pos h2]
      rw [hfe2]
      dsimp only
      rcases Nat.eq_zero_or_pos l with hl | hl
      · subst hl
        have hno : ¬ (i < retries - 1) := by omega
        rw [if_neg hno]
        have hbase : withRetryAltAux fn retries (i + 1) 0 delay = ⟨.exhausted, [], []⟩ := rfl
        rw [hbase]
        simp [h2, List.range_succ]
      · obtain ⟨l', rfl⟩ : ∃ l', l = l' + 1 := ⟨l - 1, by omega⟩
        have hyes : i < retries - 1 := by omega
        rw [if_pos hyes]
        rw [ih (i + 1) (delay * 2) (by omega)]
        show (⟨.exhausted,
            delay :: (List.range (l' + 1 - 1)).map (fun k => delay * 2 * 2 ^ k),
            GModel.primary :: GModel.fallback
              :: ((List.range (l' + 1)).map
                  (fun j => if i + 1 + j = 2 then [GModel.primary, GModel.fallback] else [GModel.primary])).flatten⟩ : RetryTrace α)
          = ⟨.exhausted, (List.range (l' + 2 - 1)).map (fun k => delay * 2 ^ k),
              ((List.range (l' + 2)).map
                (fun j => if i + j = 2 then [GModel.primary, GModel.fallback] else [GModel.primary])).flatten⟩
        rw [show l' + 1 - 1 = l' from rfl, show l' + 2 - 1 = l' + 1 from rfl]
        have hsplit : GModel.primary :: GModel.fallback
              :: ((List.range (l' + 1)).map
                  (fun j => if i + 1 + j = 2 then [GModel.primary, GModel.fallback] else [GModel.primary])).flatten
            = (if i = 2 then [GModel.primary, GModel.fallback] else [GModel.primary])
              ++ ((List.range (l' + 1)).map
                  (fun j => if i + 1 + j = 2 then [GModel.primary, GModel.fallback] else [GModel.primary])).flatten := by
          rw [if_pos h2]
          rfl
        rw [cons_pow_shift, hsplit, alt_calls_shift]
    · rw [if_neg h2]
      rcases Nat.eq_zero_or_pos l with hl | hl
      · subst hl
        have hno : ¬ (i < retries - 1) := by omega
        rw [if_neg hno]
        have hbase : withRetryAltAux fn retries (i + 1) 0 delay = ⟨.exhausted, [], []⟩ := rfl
        rw [hbase]
        simp [h2, List.range_succ]
      · obtain ⟨l', rfl⟩ : ∃ l', l = l' + 1 := ⟨l - 1, by omega⟩
        have hyes : i < retries - 1 := by omega
        rw [if_pos hyes]
        rw [ih (i + 1) (delay * 2) (by omega)]
        show (⟨.exhausted,
            delay :: (List.range (l' + 1 - 1)).map (fun k => delay * 2 * 2 ^ k),
            GModel.primary
              :: ((List.range (l' + 1)).map
                  (fun j => if i + 1 + j = 2 then [GModel.primary, GModel.fallback] else [GModel.primary])).flatten⟩ : RetryTrace α)
          = ⟨.exhausted, (List.range (l' + 2 - 1)).map (fun k => delay * 2 ^ k),
              ((List.range (l' + 2)).map
                (fun j => if i + j = 2 then [GModel.primary, GModel.fallback] else [GModel.primary])).flatten⟩
        rw [show l' + 1 - 1 = l' from rfl, show l' + 2 - 1 = l' + 1 from rfl]
        have hsplit : GModel.primary
              :: ((List.range (l' + 1)).map
                  (fun j => if i + 1 + j = 2 then [GModel.primary, GModel.fallback] else [GModel.primary])).flatten
            = (if i = 2 then [GModel.primary, GModel.fallback] else [GModel.primary])
              ++ ((List.range (l' + 1)).map
                  (fun j => if i + 1 + j = 2 then [GModel.primary, GModel.fallback] else [GModel.primary])).flatten := by
          rw [if_neg h2]
          rfl
        rw [cons_pow_shift, hsplit, alt_calls_shift]

lemma pairwise_lt_pow (d n : Nat) (hd : 0 < d) :
    List.Pairwise (· < ·) ((List.range n).map (fun i => d * 2 ^ i)) := by
  refine List.Pairwise.map _ ?_ (List.pairwise_lt_range n)
  intro a b hab
  have h2 : (2 : Nat) ^ a < 2 ^ b := Nat.pow_lt_pow_right (by omega) hab
  exact mul_lt_mul_of_pos_left h2 hd

/-- C3: for an operation that always fails with a retryable error (429/503,
as classified by each orchestrator) and any number of allowed attempts, both
orchestrators end with the terminal exhausted-retries outcome, sleep between
consecutive attempts with strictly increasing delays that double each time
(seeded at 500ms in the server version, 300ms in the alternate version), and
engage the Fallback tier on attempt index 2 (the 3rd attempt): the server
version passes the fallback model to every attempt from index 2 on, the
alternate version additionally invokes the fallback model once during attempt
index 2. -/
theorem retryBackoffFallback {α : Type} (fn : GModel → Except JsErr α) (retries : Nat)
    (h : ∀ m, ∃ e, fn m = Except.error e ∧ (is429 e || is503 e) = true
        ∧ (is429Alt e || is503Alt e) = true) :
    (withRetryAndFallback fn retries).result = RetryOutcome.exhausted
      ∧ (withRetryAndFallback fn retries).sleeps
          = (List.range (retries - 1)).map (fun i => 500 * 2 ^ i)
      ∧ List.Pairwise (· < ·) (withRetryAndFallback fn retries).sleeps
      ∧ (withRetryAndFallback fn retries).calls
          = (List.range retries).map (fun j => if 2 ≤ j then GModel.fallback else GModel.primary)
      ∧ (withRetryAndFallbackAlt fn retries).result = RetryOutcome.exhausted
      ∧ (withRetryAndFallbackAlt fn retries).sleeps
          = (List.range (retries - 1)).map (fun i => 300 * 2 ^ i)
      ∧ List.Pairwise (· < ·) (withRetryAndFallbackAlt fn retries).sleeps
      ∧ (withRetryAndFallbackAlt fn retries).calls
          = ((List.range retries).map
              (fun j => if j = 2 then [GModel.primary, GModel.fallback] else [GModel.primary])).flatten := by
  have hsrv := withRetrySrvAux_exhaust fn retries
    (fun m => (h m).imp (fun e he => ⟨he.1, he.2.1⟩)) retries 0 500 (by omega)
  have halt := withRetryAltAux_exhaust fn retries
    (fun m => (h m).imp (fun e he => ⟨he.1, he.2.2⟩)) retries 0 300 (by omega)
  have hsrv' : withRetryAndFallback fn retries
      = ⟨.exhausted, (List.range (retries - 1)).map (fun i => 500 * 2 ^ i),
          (List.range retries).map (fun j => if 2 ≤ j then GModel.fallback else GModel.primary)⟩ := by
    show withRetrySrvAux fn retries 0 retries 500 = _
    rw [hsrv]
    simp
  have halt' : withRetryAndFallbackAlt fn retries
      = ⟨.exhausted, (List.range (retries - 1)).map (fun i => 300 * 2 ^ i),
          ((List.range retries).map
            (fun j => if j = 2 then [GModel.primary, GModel.fallback] else [GModel.primary])).flatten⟩ := by
    show withRetryAltAux fn retries 0 retries 300 = _
    rw [halt]
    simp
  refine ⟨?_, ?_, ?_, ?_, ?_, ?_, ?_, ?_⟩
  · rw [hsrv']
  · rw [hsrv']
  · rw [hsrv']
    exact pairwise_lt_pow 500 (retries - 1) (by omega)
  · rw [hsrv']
  · rw [halt']
  · rw [halt']
  · rw [halt']
    exact pairwise_lt_pow 300 (retries - 1) (by omega)
  · rw [halt']

/-- C3 witness: a concrete always-429 operation with 4 allowed attempts —
sleeps 500, 1000, 2000 (server) and 300, 600, 1200 (alternate), with the
fallback tier engaged on the 3rd attempt, and the exhausted-retries outcome. -/
theorem retryBackoffFallback_witness :
    (withRetryAndFallback (fun _ : GModel => (Except.error ⟨some 429, []⟩ : Except JsErr Nat)) 4).result
        = RetryOutcome.exhausted
      ∧ (withRetryAndFallback (fun _ : GModel => (Except.error ⟨some 429, []⟩ : Except JsErr Nat)) 4).sleeps
        = [500, 1000, 2000]
      ∧ (withRetryAndFallback (fun _ : GModel => (Except.error ⟨some 429, []⟩ : Except JsErr Nat)) 4).calls
        = [GModel.primary, GModel.primary, GModel.fallback, GModel.fallback]
      ∧ (withRetryAndFallbackAlt (fun _ : GModel => (Except.error ⟨some 429, []⟩ : Except JsErr Nat)) 4).result
        = RetryOutcome.exhausted
      ∧ (withRetryAndFallbackAlt (fun _ : GModel => (Except.error ⟨some 429, []⟩ : Except JsErr Nat)) 4).sleeps
        = [300, 600, 1200]
      ∧ (withRetryAndFallbackAlt (fun _ : GModel => (Except.error ⟨some 429, []⟩ : Except JsErr Nat)) 4).calls
        = [GModel.primary, GModel.primary, GModel.primary, GModel.fallback, GModel.primary] := by
  have happ := retryBackoffFallback (fun _ : GModel => (Except.error ⟨some 429, []⟩ : Except JsErr Nat)) 4
    (fun m => ⟨⟨some 429, []⟩, rfl, by decide, by decide⟩)
  exact ⟨happ.1, happ.2.1.trans (by decide), happ.2.2.2.1.trans (by decide),
    happ.2.2.2.2.1, happ.2.2.2.2.2.1.trans (by decide), happ.2.2.2.2.2.2.2.trans (by decide)⟩

/-! ## Delivery modes: streamed endpoint vs fast/bulk endpoint

The `/api/translate-stream` handler of src/server/index.js translates chunks
sequentially and, when a chunk fails, writes one error event and ends the
response before any cache write; on success it heals and parses the
concatenation and only then caches and emits `done`.  The `/api/translate-fast`
handler translates chunks in batches of three and substitutes the original
chunk text for a failed chunk (`.catch(err => ... return chunk)`).  The
per-chunk translation outcome (`withRetryAndFallback` around `translateChunk`)
is abstracted as `tr : List Char → Except JsErr (List Char)`; the 100ms
pacing sleep has no observable effect on events and is not modelled. -/

/-- Server-sent events written by the streamed endpoint. -/
inductive SSE where
  | start (chunks : Nat)
  | chunk (index : Nat) (text : List Char) (progress : Nat)
  | done
  | errorEv (chunkNo : Nat) (msg : List Char)
  | parseFail
deriving DecidableEq

/-- The progress value `Math.round(((i + 1) / chunks.length) * 100)`,
modelled by exact rational rounding (round half up, which is what
`Math.round` does for the positive values that occur here). -/
def roundPct (k n : Nat) : Nat := (200 * k + n) / (2 * n)

/-- The fast endpoint's per-chunk resolution: the translation on success, the
original chunk text when the promise was rejected. -/
def resolveChunk (tr : List Char → Except JsErr (List Char)) (c : List Char) : List Char :=
  match tr c with
  | Except.ok t => t
  | Except.error _ => c

/-- The sequential chunk loop of `/api/translate-stream`: on success emit a
chunk event and keep going; on failure emit one error event and stop (the
response is ended, nothing is cached); after the last chunk heal and parse
the concatenation, and cache (the Bool component) exactly when the parse
succeeds. -/
def streamLoopAux (tr : List Char → Except JsErr (List Char)) (parse : List Char → Bool)
    (total : Nat) : Nat → List (List Char) → List (List Char) → List SSE × Bool
  | _, [], acc =>
    if parse (healJSON acc.reverse.flatten) then ([SSE.done], true) else ([SSE.parseFail], false)
  | i, c :: rest, acc =>
    match tr c with
    | Except.ok t =>
      let r := streamLoopAux tr parse total (i + 1) rest (t :: acc)
      (SSE.chunk i t (roundPct (i + 1) total) :: r.1, r.2)
    | Except.error err => ([SSE.errorEv (i + 1) err.text], false)

/-- The streamed endpoint after the cache-miss path split the document: the
start event followed by the loop's events, plus whether a cache write
happened. -/
def translateStream (chunks : List (List Char)) (tr : List Char → Except JsErr (List Char))
    (parse : List Char → Bool) : List SSE × Bool :=
  (SSE.start chunks.length :: (streamLoopAux tr parse chunks.length 0 chunks []).1,
    (streamLoopAux tr parse chunks.length 0 chunks []).2)

/-- The chunk events the streamed loop emits for a run of successful chunks
starting at index `i`. -/
def okEvents (tr : List Char → Except JsErr (List Char)) (total : Nat) :
    Nat → List (List Char) → List SSE
  | _, [] => []
  | i, c :: rest =>
    SSE.chunk i (resolveChunk tr c) (roundPct (i + 1) total) :: okEvents tr total (i + 1) rest

/-- The batch loop of `/api/translate-fast`: batches of `batchSize = 3`
resolved with `Promise.all` (which preserves order), each chunk substituted by
its original text on failure.  The fuel is the number of chunks, which always
suffices. -/
def translateFastBatchesF (tr : List Char → Except JsErr (List Char)) :
    Nat → List (List Char) → List (List Char)
  | 0, _ => []
  | _ + 1, [] => []
  | fuel + 1, c :: rest =>
    ((c :: rest).take 3).map (resolveChunk tr)
      ++ translateFastBatchesF tr fuel ((c :: rest).drop 3)

/-- The fast endpoint's translated chunk list. -/
def translateFastBatches (tr : List Char → Except JsErr (List Char))
    (chunks : List (List Char)) : List (List Char) :=
  translateFastBatchesF tr chunks.length chunks

lemma translateFastBatchesF_eq (tr : List Char → Except JsErr (List Char)) :
    ∀ (fuel : Nat) (l : List (List Char)), l.length ≤ fuel →
      translateFastBatchesF tr fuel l = l.map (resolveChunk tr) := by
  intro fuel
  induction fuel with
  | zero =>
    intro l hl
    cases l with
    | nil => rfl
    | cons c rest => simp at hl
  | succ n ih =>
    intro l hl
    cases l with
    | nil => rfl
    | cons c rest =>
      simp only [translateFastBatchesF]
      rw [ih ((c :: rest).drop 3)
        (by simp only [List.length_drop, List.length_cons]
            simp only [List.length_cons] at hl
            omega)]
      rw [← List.map_append, List.take_append_drop]

lemma streamLoopAux_fail (tr : List Char → Except JsErr (List Char)) (parse : List Char → Bool)
    (total : Nat) (e : JsErr) :
    ∀ (j : Nat) (pending : List (List Char)) (i : Nat) (acc : List (List Char)),
      j < pending.length →
      tr (pending.getD j []) = Except.error e →
      (∀ k, k < j → (tr (pending.getD k [])).isOk = true) →
      streamLoopAux tr parse total i pending acc
        = (okEvents tr total i (pending.take j) ++ [SSE.errorEv (i + j + 1) e.text], false) := by
  intro j
  induction j with
  | zero =>
    intro pending i acc hj hfail _
    cases pending with
    | nil => simp at hj
    | cons c rest =>
      simp only [List.getD_cons_zero] at hfail
      simp only [streamLoopAux, List.take_zero, okEvents, List.nil_append]
      rw [hfail]
  | succ n ih =>
    intro pending i acc hj hfail hok
    cases pending with
    | nil => simp at hj
    | cons c rest =>
      have h0 := hok 0 (by omega)
      simp only [List.getD_cons_zero] at h0
      obtain ⟨t, ht⟩ : ∃ t, tr c = Except.ok t := by
        cases htr : tr c with
        | error err => rw [htr] at h0; simp [Except.isOk, Except.toBool] at h0
        | ok t => exact ⟨t, rfl⟩
      simp only [streamLoopAux]
      rw [ht]
      dsimp only
      rw [ih rest (i + 1) (t :: acc) (by simpa using hj)
        (by simpa using hfail)
        (fun k hk => by simpa using hok (k + 1) (by omega))]
      simp only [List.take_succ_cons, okEvents]
      have hres : resolveChunk tr c = t := by
        simp [resolveChunk, ht]
      rw [hres]
      rw [show i + 1 + n + 1 = i + (n + 1) + 1 from by omega]
      rfl

/-- C4: the two delivery modes treat a failing segment differently.  If chunk
`j` is the first to fail, the streamed endpoint emits the start event, one
chunk event per successful chunk before `j`, then a single terminal error
event — and writes nothing to the cache — while the fast endpoint substitutes
the original text of every failed chunk at its own index and processes all
segments: its output is exactly `chunks.map (resolveChunk tr)`. -/
theorem modeAsymmetry (chunks : List (List Char)) (tr : List Char → Except JsErr (List Char))
    (parse : List Char → Bool) (j : Nat) (e : JsErr)
    (hj : j < chunks.length)
    (hfail : tr (chunks.getD j []) = Except.error e)
    (hok : ∀ k, k < j → (tr (chunks.getD k [])).isOk = true) :
    (translateStream chunks tr parse).2 = false
      ∧ (translateStream chunks tr parse).1
          = SSE.start chunks.length
              :: (okEvents tr chunks.length 0 (chunks.take j) ++ [SSE.errorEv (j + 1) e.text])
      ∧ translateFastBatches tr chunks = chunks.map (resolveChunk tr) := by
  have hloop := streamLoopAux_fail tr parse chunks.length e j chunks 0 [] hj hfail hok
  refine ⟨?_, ?_, ?_⟩
  · show (streamLoopAux tr parse chunks.length 0 chunks []).2 = false
    rw [hloop]
  · show SSE.start chunks.length :: (streamLoopAux tr parse chunks.length 0 chunks []).1 = _
    rw [hloop]
    simp
  · exact translateFastBatchesF_eq tr chunks.length chunks (le_refl _)

/-- C4 witness: three chunks with the middle one failing — the stream aborts
after the first chunk event with one error event and no cache write, the fast
endpoint substitutes the original `"bb"` and still translates `"cc"`. -/
theorem modeAsymmetry_witness :
    (translateStream [("aa").toList, ("bb").toList, ("cc").toList]
        (fun c => if c = ("bb").toList then Except.error ⟨none, ("boom").toList⟩
          else Except.ok (c ++ ("!").toList)) (fun _ => true)).2 = false
      ∧ (translateStream [("aa").toList, ("bb").toList, ("cc").toList]
          (fun c => if c = ("bb").toList then Except.error ⟨none, ("boom").toList⟩
            else Except.ok (c ++ ("!").toList)) (fun _ => true)).1
        = [SSE.start 3, SSE.chunk 0 (("aa!").toList) 33, SSE.errorEv 2 (("boom").toList)]
      ∧ translateFastBatches
          (fun c => if c = ("bb").toList then Except.error ⟨none, ("boom").toList⟩
            else Except.ok (c ++ ("!").toList))
          [("aa").toList, ("bb").toList, ("cc").toList]
        = [("aa!").toList, ("bb").toList, ("cc!").toList] := by
  have h := modeAsymmetry [("aa").toList, ("bb").toList, ("cc").toList]
    (fun c => if c = ("bb").toList then Except.error ⟨none, ("boom").toList⟩
      else Except.ok (c ++ ("!").toList))
    (fun _ => true) 1 ⟨none, ("boom").toList⟩ (by decide) rfl (by decide)
  exact ⟨h.1, h.2.1.trans (by decide), h.2.2.trans (by decide)⟩

/-! ## Bulk-mode worker pool (`translateInParallel`, alternate file lines 167-196)

`translateInParallel` creates a queue of `{chunk, index}` items, a pre-sized
results array, and a pool of workers that atomically `shift()` items off the
shared queue and write each outcome to `results[item.index]` (the translation,
or the original chunk text when it failed).  The concurrency is modelled by an
explicit action sequence: `pop` moves the queue head into the in-flight set,
`finish it` completes an in-flight item (in any order) and performs the
index-addressed write.  Every interleaving of pops and completions, including
reverse completion order, is such a sequence. -/

/-- A queue item `{chunk, index}`. -/
structure ParItem where
  index : Nat
  chunk : List Char
deriving DecidableEq

/-- Scheduler state: the shared pending queue, the in-flight items, and the
pre-sized results array (`new Array(chunks.length)`, unset cells = `none`). -/
structure ParState where
  queue : List ParItem
  holding : List ParItem
  results : List (Option (List Char))
deriving DecidableEq

/-- One scheduler action: a worker pops the queue head, or an in-flight item
completes. -/
inductive ParAction where
  | pop
  | finish (it : ParItem)
deriving DecidableEq

/-- Effect of one action: `pop` is the atomic `queue.shift()`; `finish it`
removes `it` from the in-flight set and writes its outcome — the translation
on success, the original chunk on failure — to `results[it.index]`. -/
def parStep (tr : List Char → Except JsErr (List Char)) (st : ParState) :
    ParAction → ParState
  | ParAction.pop =>
    match st.queue with
    | [] => st
    | it :: rest => ⟨rest, st.holding ++ [it], st.results⟩
  | ParAction.finish it =>
    if it ∈ st.holding then
      ⟨st.queue, st.holding.erase it,
        st.results.set it.index (some (resolveChunk tr it.chunk))⟩
    else st

/-- `chunks.map((chunk, index) => ({ chunk, index }))` starting at `index`. -/
def enumChunks : Nat → List (List Char) → List ParItem
  | _, [] => []
  | i, c :: rest => ⟨i, c⟩ :: enumChunks (i + 1) rest

/-- Initial scheduler state of `translateInParallel`. -/
def parInit (chunks : List (List Char)) : ParState :=
  ⟨enumChunks 0 chunks, [], List.replicate chunks.length none⟩

/-- Run a whole action sequence. -/
def parRun (tr : List Char → Except JsErr (List Char)) (chunks : List (List Char))
    (acts : List ParAction) : ParState :=
  acts.foldl (parStep tr) (parInit chunks)

/-- The scheduler invariant: results are correctly sized; every queued or
in-flight item carries its original index and chunk; every written cell holds
the outcome of its own chunk; and every unwritten cell still has its item
queued or in flight. -/
def ParInv (tr : List Char → Except JsErr (List Char)) (chunks : List (List Char))
    (st : ParState) : Prop :=
  st.results.length = chunks.length
    ∧ (∀ it ∈ st.queue ++ st.holding,
        it.index < chunks.length ∧ it.chunk = chunks.getD it.index [])
    ∧ (∀ i, i < chunks.length →
        st.results.getD i none = none
          ∨ st.results.getD i none = some (resolveChunk tr (chunks.getD i [])))
    ∧ (∀ i, i < chunks.length → st.results.getD i none = none →
        ∃ it, it ∈ st.queue ++ st.holding ∧ it.index = i)

lemma getD_replicate_none (n i : Nat) :
    (List.replicate n (none : Option (List Char))).getD i none = none := by
  induction n generalizing i with
  | zero => simp
  | succ m ih =>
    cases i with
    | zero => simp [List.replicate_succ]
    | succ k => simpa [List.replicate_succ] using ih k

lemma getD_set_eq (l : List (Option (List Char))) (i : Nat) (v : Option (List Char))
    (h : i < l.length) : (l.set i v).getD i none = v := by
  induction l generalizing i with
  | nil => simp at h
  | cons a t ih =>
    cases i with
    | zero => simp
    | succ k =>
      simp only [List.set_cons_succ, List.getD_cons_succ]
      exact ih k (by simpa using h)

lemma getD_set_ne (l : List (Option (List Char))) (i j : Nat) (v : Option (List Char))
    (h : i ≠ j) : (l.set i v).getD j none = l.getD j none := by
  induction l generalizing i j with
  | nil => simp
  | cons a t ih =>
    cases i with
    | zero =>
      cases j with
      | zero => exact absurd rfl h
      | succ k => simp
    | succ m =>
      cases j with
      | zero => simp
      | succ k =>
        simp only [List.set_cons_succ, List.getD_cons_succ]
        exact ih m k (by omega)

lemma enumChunks_mem (l : List (List Char)) :
    ∀ (i : Nat) (it : ParItem), it ∈ enumChunks i l →
      ∃ k, k < l.length ∧ it.index = i + k ∧ it.chunk = l.getD k [] := by
  induction l with
  | nil => intro i it h; simp [enumChunks] at h
  | cons c rest ih =>
    intro i it h
    simp only [enumChunks, List.mem_cons] at h
    rcases h with h | h
    · exact ⟨0, by simp, by simp [h], by simp [h]⟩
    · obtain ⟨k, hk, hidx, hch⟩ := ih (i + 1) it h
      exact ⟨k + 1, by simpa using hk, by omega, by simpa using hch⟩

lemma enumChunks_cover (l : List (List Char)) :
    ∀ (i0 k : Nat), k < l.length →
      (⟨i0 + k, l.getD k []⟩ : ParItem) ∈ enumChunks i0 l := by
  induction l with
  | nil => intro i0 k hk; simp at hk
  | cons c rest ih =>
    intro i0 k hk
    cases k with
    | zero => simp [enumChunks]
    | succ m =>
      simp only [enumChunks, List.mem_cons]
      right
      have := ih (i0 + 1) m (by simpa using hk)
      simpa [show i0 + 1 + m = i0 + (m + 1) from by omega] using this

lemma parInit_inv (tr : List Char → Except JsErr (List Char)) (chunks : List (List Char)) :
    ParInv tr chunks (parInit chunks) := by
  refine ⟨by simp [parInit], ?_, ?_, ?_⟩
  · intro it hmem
    simp only [parInit, List.append_nil] at hmem
    obtain ⟨k, hk, hidx, hch⟩ := enumChunks_mem chunks 0 it hmem
    rw [hidx, hch]
    simpa using hk
  · intro i _
    left
    exact getD_replicate_none _ _
  · intro i hi _
    exact ⟨⟨i, chunks.getD i []⟩, by
      simp only [parInit, List.append_nil]
      simpa using enumChunks_cover chunks 0 i hi, rfl⟩

lemma parStep_inv (tr : List Char → Except JsErr (List Char)) (chunks : List (List Char))
    (st : ParState) (a : ParAction) (h : ParInv tr chunks st) :
    ParInv tr chunks (parStep tr st a) := by
  obtain ⟨h1, h2, h3, h4⟩ := h
  cases a with
  | pop =>
    cases hq : st.queue with
    | nil =>
      have hstep : parStep tr st ParAction.pop = st := by
        simp [parStep, hq]
      rw [hstep]
      exact ⟨h1, h2, h3, h4⟩
    | cons it rest =>
      have hstep : parStep tr st ParAction.pop
          = ⟨rest, st.holding ++ [it], st.results⟩ := by
        simp [parStep, hq]
      rw [hstep]
      refine ⟨h1, ?_, h3, ?_⟩
      · intro x hx
        apply h2
        rw [hq]
        simp only [List.mem_append, List.mem_cons] at hx ⊢
        tauto
      · intro i hi hnone
        obtain ⟨x, hx, hxi⟩ := h4 i hi hnone
        rw [hq] at hx
        refine ⟨x, ?_, hxi⟩
        simp only [List.mem_append, List.mem_cons] at hx ⊢
        tauto
  | finish it =>
    by_cases hm : it ∈ st.holding
    · have hit := h2 it (List.mem_append.mpr (Or.inr hm))
      have hstep : parStep tr st (ParAction.finish it)
          = ⟨st.queue, st.holding.erase it,
              st.results.set it.index (some (resolveChunk tr it.chunk))⟩ := by
        simp [parStep, hm]
      rw [hstep]
      refine ⟨by simpa using h1, ?_, ?_, ?_⟩
      · intro x hx
        apply h2
        rcases List.mem_append.mp hx with hxa | hxb
        · exact List.mem_append.mpr (Or.inl hxa)
        · exact List.mem_append.mpr (Or.inr ((List.erase_sublist it st.holding).subset hxb))
      · intro i hi
        by_cases hidx : it.index = i
        · right
          rw [← hidx]
          rw [getD_set_eq _ _ _ (by rw [h1]; exact hit.1)]
          rw [hit.2]
        · rw [getD_set_ne _ _ _ _ hidx]
          exact h3 i hi
      · intro i hi hnone
        by_cases hidx : it.index = i
        · exfalso
          rw [← hidx] at hnone
          rw [getD_set_eq _ _ _ (by rw [h1]; exact hit.1)] at hnone
          exact Option.noConfusion hnone
        · rw [getD_set_ne _ _ _ _ hidx] at hnone
          obtain ⟨x, hx, hxi⟩ := h4 i hi hnone
          have hxne : x ≠ it := by
            intro hcon
            rw [hcon] at hxi
            exact hidx hxi
          refine ⟨x, ?_, hxi⟩
          rcases List.mem_append.mp hx with hxa | hxb
          · exact List.mem_append.mpr (Or.inl hxa)
          · exact List.mem_append.mpr (Or.inr ((List.mem_erase_of_ne hxne).mpr hxb))
    · have hstep : parStep tr st (ParAction.finish it) = st := by
        simp [parStep, hm]
      rw [hstep]
      exact ⟨h1, h2, h3, h4⟩

lemma parRun_inv (tr : List Char → Except JsErr (List Char)) (chunks : List (List Char))
    (acts : List ParAction) : ParInv tr chunks (parRun tr chunks acts) := by
  have hgen : ∀ (l : List ParAction) (st : ParState), ParInv tr chunks st →
      ParInv tr chunks (l.foldl (parStep tr) st) := by
    intro l
    induction l with
    | nil => intro st h; exact h
    | cons a rest ih =>
      intro st h
      exact ih (parStep tr st a) (parStep_inv tr chunks st a h)
  exact hgen acts (parInit chunks) (parInit_inv tr chunks)

/-- C8: for every interleaving of pops and completions over the shared queue
(every completion order of the workers), once the queue is empty and no item
is in flight, the pre-sized results array holds at index `i` exactly the
outcome of chunk `i` — its translation, or its original text if it failed —
so the assembled output preserves the original segment order. -/
theorem parallelOrder (chunks : List (List Char)) (tr : List Char → Except JsErr (List Char))
    (acts : List ParAction)
    (hq : (parRun tr chunks acts).queue = [])
    (hh : (parRun tr chunks acts).holding = []) :
    ∀ i, i < chunks.length →
      (parRun tr chunks acts).results.getD i none
        = some (resolveChunk tr (chunks.getD i [])) := by
  have hinv := parRun_inv tr chunks acts
  intro i hi
  rcases hinv.2.2.1 i hi with hnone | hsome
  · exfalso
    obtain ⟨it, hmem, _⟩ := hinv.2.2.2 i hi hnone
    rw [hq, hh] at hmem
    simp at hmem
  · exact hsome

/-- C8 witness: two chunks, both popped before either completes, completed in
reverse order; the first chunk translates, the second fails and is
substituted — the results still sit at their original indices. -/
theorem parallelOrder_witness :
    (parRun (fun c => if c = ("ab").toList then Except.ok (("AB").toList)
        else Except.error ⟨none, []⟩)
      [("ab").toList, ("cd").toList]
      [ParAction.pop, ParAction.pop,
        ParAction.finish ⟨1, ("cd").toList⟩, ParAction.finish ⟨0, ("ab").toList⟩]).results.getD 0 none
      = some (("AB").toList)
    ∧ (parRun (fun c => if c = ("ab").toList then Except.ok (("AB").toList)
        else Except.error ⟨none, []⟩)
      [("ab").toList, ("cd").toList]
      [ParAction.pop, ParAction.pop,
        ParAction.finish ⟨1, ("cd").toList⟩, ParAction.finish ⟨0, ("ab").toList⟩]).results.getD 1 none
      = some (("cd").toList) := by
  have h := parallelOrder [("ab").toList, ("cd").toList]
    (fun c => if c = ("ab").toList then Except.ok (("AB").toList)
      else Except.error ⟨none, []⟩)
    [ParAction.pop, ParAction.pop,
      ParAction.finish ⟨1, ("cd").toList⟩, ParAction.finish ⟨0, ("ab").toList⟩]
    (by decide) (by decide)
  exact ⟨(h 0 (by decide)).trans (by decide), (h 1 (by decide)).trans (by decide)⟩

/-! ## Translation caches

`getCachedTranslation` (src/server/index.js lines 73-96) looks a key up in
the on-disk index, treats an entry older than 7 days as a miss — without
deleting it; the function performs no writes — and otherwise returns the
parsed payload file.  `TranslationService.getCached`
(src/src/services/translationService.ts lines 78-94) also treats an entry
older than 7 days as a miss but deletes it (`delete this.cache[key]`).  Both
are embedded with explicit state passing: each returns the lookup result and
the cache state after the call. -/

/-- Association-list lookup, modelling `index[cacheKey]` / `this.cache[key]`. -/
def lookupA {β : Type} : List (List Char × β) → List Char → Option β
  | [], _ => none
  | (k, v) :: rest, key => if k = key then some v else lookupA rest key

/-- An entry of the server cache index: `{timestamp, language, file}` (the
file name is derived from the key and not modelled separately). -/
structure CacheIdxEntry where
  timestamp : Int
  language : List Char
deriving DecidableEq

/-- `7 * 24 * 60 * 60 * 1000` milliseconds. -/
def maxAgeMs : Int := 7 * 24 * 60 * 60 * 1000

/-- `getCachedTranslation(cacheKey)` from src/server/index.js: miss when the
key is absent; miss when `now - entry.timestamp > maxAge` (the entry stays in
the index — nothing is written); otherwise the payload file is read and
parsed (`file`, with `none` for a read/parse failure caught as a miss). -/
def getCachedTranslation {α : Type} (index : List (List Char × CacheIdxEntry))
    (file : List Char → Option α) (now : Int) (cacheKey : List Char) :
    Option α × List (List Char × CacheIdxEntry) :=
  match lookupA index cacheKey with
  | none => (none, index)
  | some entry =>
    if now - entry.timestamp > maxAgeMs then (none, index)
    else (file cacheKey, index)

/-- An entry of the client-side cache: `{data, timestamp, language, version}`. -/
structure TsCacheEntry (α : Type) where
  data : α
  timestamp : Int
  language : List Char
  version : List Char
deriving DecidableEq

/-- The client cache's `maxAge`, also 7 days. -/
def tsMaxAge : Int := 7 * 24 * 60 * 60 * 1000

/-- `delete this.cache[key]`. -/
def eraseKey {β : Type} (cache : List (List Char × β)) (key : List Char) :
    List (List Char × β) :=
  cache.filter (fun p => decide (p.1 ≠ key))

/-- `TranslationService.getCached` from translationService.ts: miss when
absent; on an expired entry, delete it and miss; otherwise return the stored
translated data. -/
def tsGetCached {α : Type} (cache : List (List Char × TsCacheEntry α)) (now : Int)
    (key : List Char) : Option α × List (List Char × TsCacheEntry α) :=
  match lookupA cache key with
  | none => (none, cache)
  | some entry =>
    if now - entry.timestamp > tsMaxAge then (none, eraseKey cache key)
    else (some entry.data, cache)

/-- Response of the fast endpoint: a cache hit served directly, or a freshly
translated (healed) text.  The JSON.parse and cache write of the success path
happen after this point and are outside the model. -/
inductive FastResp (α : Type) where
  | cachedHit (payload : α)
  | translated (healedText : List Char)
deriving DecidableEq

/-- The cache-check prefix of `/api/translate-fast`: on a cache hit the
cached payload is returned with zero translation calls; on a miss the
document is split and every chunk is dispatched for translation (the second
component counts the per-chunk translation jobs). -/
def translateFastEndpoint {α : Type} (index : List (List Char × CacheIdxEntry))
    (file : List Char → Option α) (now : Int) (cacheKey jsonStr : List Char)
    (tr : List Char → Except JsErr (List Char)) : FastResp α × Nat :=
  match (getCachedTranslation index file now cacheKey).1 with
  | some c => (FastResp.cachedHit c, 0)
  | none =>
    (FastResp.translated
        (healJSON (translateFastBatches tr (smartSplitChunks jsonStr 800)).flatten),
      (smartSplitChunks jsonStr 800).length)

lemma lookupA_eraseKey {β : Type} (cache : List (List Char × β)) (key : List Char) :
    lookupA (eraseKey cache key) key = none := by
  induction cache with
  | nil => rfl
  | cons p rest ih =>
    by_cases hp : p.1 = key
    · simpa [eraseKey, List.filter_cons, hp] using ih
    · obtain ⟨k, v⟩ := p
      simp only at hp
      simp only [eraseKey, List.filter_cons]
      rw [if_pos (by simpa using hp)]
      simp only [lookupA, if_neg hp]
      exact ih

/-- C7 (counterexample): the server-side cache does not remove an expired
entry — an expired lookup is a miss, but the entry is still in the index
afterwards. -/
theorem cacheExpiry_cex :
    (getCachedTranslation (α := Nat) [(("k").toList, ⟨0, ("es").toList⟩)]
        (fun _ => some 7) (maxAgeMs + 1) (("k").toList)).1 = none
      ∧ lookupA (getCachedTranslation (α := Nat) [(("k").toList, ⟨0, ("es").toList⟩)]
          (fun _ => some 7) (maxAgeMs + 1) (("k").toList)).2 (("k").toList)
        = some ⟨0, ("es").toList⟩ := by
  decide

/-- C7 (amended): a lookup of an entry created more than 7 days earlier is
treated as a miss by both caches; the client-side `TranslationService`
removes the expired entry lazily, while the server-side
`getCachedTranslation` leaves it in place; a lookup within the window
returns the stored payload, and the fast endpoint then answers from the
cache without dispatching any translation. -/
theorem cacheExpiry {α : Type} (index : List (List Char × CacheIdxEntry))
    (cache : List (List Char × TsCacheEntry α)) (file : List Char → Option α)
    (now : Int) (key : List Char) (entry : CacheIdxEntry) (tentry : TsCacheEntry α)
    (jsonStr : List Char) (tr : List Char → Except JsErr (List Char)) :
    (lookupA index key = some entry → now - entry.timestamp > maxAgeMs →
      getCachedTranslation index file now key = (none, index))
    ∧ (lookupA index key = some entry → ¬ (now - entry.timestamp > maxAgeMs) →
      (getCachedTranslation index file now key).1 = file key)
    ∧ (lookupA cache key = some tentry → now - tentry.timestamp > tsMaxAge →
      tsGetCached cache now key = (none, eraseKey cache key)
        ∧ lookupA (tsGetCached cache now key).2 key = none)
    ∧ (lookupA cache key = some tentry → ¬ (now - tentry.timestamp > tsMaxAge) →
      tsGetCached cache now key = (some tentry.data, cache))
    ∧ (lookupA index key = some entry → ¬ (now - entry.timestamp > maxAgeMs) →
      ∀ payload, file key = some payload →
        translateFastEndpoint index file now key jsonStr tr
          = (FastResp.cachedHit payload, 0)) := by
  refine ⟨?_, ?_, ?_, ?_, ?_⟩
  · intro hl hexp
    simp only [getCachedTranslation]
    rw [hl]
    dsimp only
    rw [if_pos hexp]
  · intro hl hfresh
    simp only [getCachedTranslation]
    rw [hl]
    dsimp only
    rw [if_neg hfresh]
  · intro hl hexp
    constructor
    · simp only [tsGetCached]
      rw [hl]
      dsimp only
      rw [if_pos hexp]
    · simp only [tsGetCached]
      rw [hl]
      dsimp only
      rw [if_pos hexp]
      exact lookupA_eraseKey cache key
  · intro hl hfresh
    simp only [tsGetCached]
    rw [hl]
    dsimp only
    rw [if_neg hfresh]
  · intro hl hfresh payload hfile
    have hcached : (getCachedTranslation index file now key).1 = some payload := by
      simp only [getCachedTranslation]
      rw [hl]
      dsimp only
      rw [if_neg hfresh]
      exact hfile
    simp only [translateFastEndpoint]
    rw [hcached]

/-- C7 witness: a fresh entry is served (by both caches and by the endpoint,
with zero translation calls), and an entry aged past 7 days is missed and
deleted by the client cache. -/
theorem cacheExpiry_witness :
    (getCachedTranslation (α := Nat) [(("k").toList, ⟨5, ("es").toList⟩)]
        (fun _ => some 7) 10 (("k").toList)).1 = some 7
      ∧ tsGetCached [(("k").toList,
            (⟨42, 0, ("es").toList, ("1.0").toList⟩ : TsCacheEntry Nat))]
          (tsMaxAge + 1) (("k").toList) = (none, [])
      ∧ lookupA (tsGetCached [(("k").toList,
            (⟨42, 0, ("es").toList, ("1.0").toList⟩ : TsCacheEntry Nat))]
          (tsMaxAge + 1) (("k").toList)).2 (("k").toList) = none
      ∧ translateFastEndpoint (α := Nat) [(("k").toList, ⟨5, ("es").toList⟩)]
          (fun _ => some 7) 10 (("k").toList) (("x").toList)
          (fun _ => Except.error ⟨none, []⟩)
        = (FastResp.cachedHit 7, 0) := by
  have hf := cacheExpiry (α := Nat) [(("k").toList, ⟨5, ("es").toList⟩)]
    [(("k").toList, (⟨42, 0, ("es").toList, ("1.0").toList⟩ : TsCacheEntry Nat))]
    (fun _ => some 7) 10 (("k").toList) ⟨5, ("es").toList⟩
    ⟨42, 0, ("es").toList, ("1.0").toList⟩ (("x").toList)
    (fun _ => Except.error ⟨none, []⟩)
  have he := cacheExpiry (α := Nat) [(("k").toList, ⟨5, ("es").toList⟩)]
    [(("k").toList, (⟨42, 0, ("es").toList, ("1.0").toList⟩ : TsCacheEntry Nat))]
    (fun _ => some 7) (tsMaxAge + 1) (("k").toList) ⟨5, ("es").toList⟩
    ⟨42, 0, ("es").toList, ("1.0").toList⟩ (("x").toList)
    (fun _ => Except.error ⟨none, []⟩)
  refine ⟨hf.2.1 (by decide) (by decide), ?_, ?_, hf.2.2.2.2 (by decide) (by decide) 7 rfl⟩
  · exact (he.2.2.1 (by decide) (by decide)).1.trans (by decide)
  · exact (he.2.2.1 (by decide) (by decide)).2

/-! ## Per-run chunk cache (`translateChunk`, alternate file lines 101-134)

`translateChunk` keys its in-memory `chunkCache` by
`` `${targetLang}:${text.substring(0, 50)}` `` — the target language plus only
the first 50 characters of the chunk — returns a cached value without calling
the model, and otherwise calls the model and stores the trimmed response.
The model call is abstracted as `gen : prompt → raw response text`. -/

/-- The cache key `` `${targetLang}:${text.substring(0, 50)}` ``. -/
def chunkCacheKey (targetLang text : List Char) : List Char :=
  targetLang ++ ':' :: text.take 50

/-- The instruction prompt of the alternate `translateChunk`. -/
def translatePromptAlt (targetLang text : List Char) : List Char :=
  ("You are a highly reliable translation engine.\nTranslate ONLY human-readable text values in this JSON to ").toList
    ++ targetLang
    ++ (".\n\nSTRICT RULES:\n- DO NOT change JSON keys.\n- DO NOT change array structure.\n- DO NOT translate identifiers, ids, keys, URLs, emails, or paths.\n- DO NOT add new fields.\n- DO NOT remove any fields.\n- Return ONLY valid JSON.\n- If you cannot translate a value, keep it unchanged.\n- Preserve formatting and punctuation.\n- Fix any spelling or grammar mistakes naturally.\n\nTEXT:\n").toList
    ++ text ++ ("\n").toList

/-- `translateChunk(text, targetLang, model)` from the alternate file, with
explicit cache state: returns the translation, the cache after the call, and
whether the model was contacted. -/
def translateChunkAlt (cache : List (List Char × List Char)) (gen : List Char → List Char)
    (text targetLang : List Char) : List Char × List (List Char × List Char) × Bool :=
  match lookupA cache (chunkCacheKey targetLang text) with
  | some v => (v, cache, false)
  | none =>
    let translated := trimList (gen (translatePromptAlt targetLang text))
    (translated, (chunkCacheKey targetLang text, translated) :: cache, true)

/-- C10: the per-run chunk cache keys entries by the target language plus
only the first 50 characters of the segment, so two distinct segments
agreeing on their first 50 characters collide: after translating the first
(which contacts the model), translating the second returns the first's cached
translation without contacting the model — for every model behaviour `gen`
and every target language. -/
theorem chunkCachePrefixCollision (gen : List Char → List Char) (lang : List Char) :
    (List.replicate 50 'a' ++ ['b'] : List Char) ≠ List.replicate 50 'a' ++ ['c']
      ∧ (List.replicate 50 'a' ++ (['b'] : List Char)).take 50
          = (List.replicate 50 'a' ++ ['c']).take 50
      ∧ (translateChunkAlt [] gen (List.replicate 50 'a' ++ ['b']) lang).2.2 = true
      ∧ (translateChunkAlt ((translateChunkAlt [] gen (List.replicate 50 'a' ++ ['b']) lang).2.1)
          gen (List.replicate 50 'a' ++ ['c']) lang).2.2 = false
      ∧ (translateChunkAlt ((translateChunkAlt [] gen (List.replicate 50 'a' ++ ['b']) lang).2.1)
          gen (List.replicate 50 'a' ++ ['c']) lang).1
        = (translateChunkAlt [] gen (List.replicate 50 'a' ++ ['b']) lang).1 := by
  have htake : ∀ c : Char, (List.replicate 50 'a' ++ [c]).take 50 = List.replicate 50 'a' :=
    fun c => List.take_left' (by simp)
  have hkey : chunkCacheKey lang (List.replicate 50 'a' ++ ['b'])
      = chunkCacheKey lang (List.replicate 50 'a' ++ ['c']) := by
    unfold chunkCacheKey
    rw [htake 'b', htake 'c']
  have hsecond : translateChunkAlt
        ((translateChunkAlt [] gen (List.replicate 50 'a' ++ ['b']) lang).2.1)
        gen (List.replicate 50 'a' ++ ['c']) lang
      = ((translateChunkAlt [] gen (List.replicate 50 'a' ++ ['b']) lang).1,
          (translateChunkAlt [] gen (List.replicate 50 'a' ++ ['b']) lang).2.1, false) := by
    show translateChunkAlt
        [(chunkCacheKey lang (List.replicate 50 'a' ++ ['b']),
          trimList (gen (translatePromptAlt lang (List.replicate 50 'a' ++ ['b']))))]
        gen (List.replicate 50 'a' ++ ['c']) lang = _
    simp only [translateChunkAlt, lookupA]
    rw [if_pos hkey]
  refine ⟨?_, ?_, rfl, ?_, ?_⟩
  · decide
  · rw [htake 'b', htake 'c']
  · rw [hsecond]
  · rw [hsecond]

end Cvmodel
